import Mathlib

/-!
# Verification of the sir-thaddeus voice-backend job pipeline

A shallow embedding, in Lean 4, of the pure logic of
`src/apps/voice-backend/youtube_pipeline.py` and of the manifest
verification in `src/apps/voice-backend/server.py`, together with proofs
of the behavioural claims about them.

Python strings are modelled as `List Char` (`Str` below); the model
restricts attention to ASCII inputs, so Python's Unicode-aware
`str.strip` / `str.lower` coincide with the ASCII versions used here.
-/

set_option maxHeartbeats 1000000

/-- Python strings, modelled as lists of characters. -/
abbrev Str := List Char

/-- ASCII whitespace as recognised by Python's `str.strip()` and the regex
class `\s` (restricted to ASCII). -/
def pySpace (c : Char) : Bool :=
  c = ' ' || c = '\t' || c = '\n' || c = '\r' || c = '\x0b' || c = '\x0c'

/-- Python `str.lstrip()`. -/
def lstripWs (s : Str) : Str := s.dropWhile pySpace

/-- Python `str.rstrip()`. -/
def rstripWs (s : Str) : Str := (s.reverse.dropWhile pySpace).reverse

/-- Python `str.strip()`. -/
def stripWs (s : Str) : Str := rstripWs (lstripWs s)

/-- Python `str.lower()` (ASCII). -/
def lowerStr (s : Str) : Str := s.map Char.toLower

/-- Does `p` occur at the start of `s`?  (Python `str.startswith`.) -/
def startsWithStr : Str → Str → Bool
  | [], _ => true
  | _ :: _, [] => false
  | p :: ps, c :: cs => p == c && startsWithStr ps cs

/-- Does `needle` occur as a contiguous substring of `hay`?
(Python's `in` operator on strings.) -/
def containsSub (needle : Str) : Str → Bool
  | [] => startsWithStr needle []
  | c :: cs => startsWithStr needle (c :: cs) || containsSub needle cs

/-- Does `s` end with `p`? (Python `str.endswith`.) -/
def endsWithStr (p s : Str) : Bool := startsWithStr p.reverse s.reverse

/-- A typed pipeline failure (`PipelineError` in youtube_pipeline.py);
`details` are not modelled. -/
structure PipelineError where
  code : Str
  message : Str
deriving DecidableEq, Repr

/-! ## URL validation (`_is_youtube_url`, youtube_pipeline.py lines 72-76) -/

/-- `_is_youtube_url`: the URL must start with `http://` or `https://`
(after trimming and lowercasing) and must *contain the substring*
`youtube.com/` or `youtu.be/` anywhere. -/
def isYoutubeUrl (url : Str) : Bool :=
  let lowered := lowerStr (stripWs url)
  if !(startsWithStr ("http://".toList) lowered) && !(startsWithStr ("https://".toList) lowered) then
    false
  else
    containsSub ("youtube.com/".toList) lowered || containsSub ("youtu.be/".toList) lowered

/-- Modelled from the spec: "host-match `youtube.com/` or `youtu.be/`".
Extracts the authority component (between the scheme and the first of
`/`, `?`, `#`) and checks that it equals, or is a subdomain of,
`youtube.com` or `youtu.be`.  (Ports are not modelled; the
counterexample uses none.) -/
def specHostOf (url : Str) : Str :=
  let lowered := lowerStr (stripWs url)
  let afterScheme :=
    if startsWithStr ("https://".toList) lowered then lowered.drop 8
    else if startsWithStr ("http://".toList) lowered then lowered.drop 7
    else []
  afterScheme.takeWhile (fun c => !(c == '/' || c == '?' || c == '#'))

/-- Modelled from the spec: the URL is an http(s) URL whose host matches
`youtube.com` or `youtu.be`. -/
def specHostMatches (url : Str) : Bool :=
  let lowered := lowerStr (stripWs url)
  (startsWithStr ("http://".toList) lowered || startsWithStr ("https://".toList) lowered)
  && (let h := specHostOf url
      h == ("youtube.com".toList) || endsWithStr (".youtube.com".toList) h
      || h == ("youtu.be".toList) || endsWithStr (".youtu.be".toList) h)

/-! ## Folder-component sanitisation (`_sanitize_folder_component`, lines 66-69) -/

/-- `re.sub(r"[^A-Za-z0-9_-]", "_", raw)`: replace every character outside
`[A-Za-z0-9_-]` with `_`. -/
def sanitizeReplace (raw : Str) : Str :=
  raw.map (fun c => if c.isAlphanum || c == '_' || c == '-' then c else '_')

/-- Python `str.strip("_")`. -/
def stripUnderscores (s : Str) : Str :=
  ((s.dropWhile (· == '_')).reverse.dropWhile (· == '_')).reverse

/-- `_sanitize_folder_component`: replace characters outside `[A-Za-z0-9_-]`
with `_`, strip leading/trailing `_`, then truncate to 96 characters ---
except that an empty result is replaced by the literal `"unknown"`. -/
def sanitizeFolderComponent (raw : Str) : Str :=
  let cleaned := stripUnderscores (sanitizeReplace raw)
  if cleaned = [] then ("unknown".toList) else cleaned.take 96

/-- Modelled from the spec: "sanitization replaces any byte outside
`[A-Za-z0-9_-]` with `_`, strips leading/trailing `_`, and truncates to
96 bytes; empty results are rejected as INVALID_URL".  This is the
sanitisation *without* the code's `"unknown"` substitution. -/
def specSanitize (raw : Str) : Str :=
  (stripUnderscores (sanitizeReplace raw)).take 96

/-- The video-id step of `_execute_pipeline` (lines 336-348): sanitise the
resolved metadata id and reject the job with `INVALID_URL` when the
sanitised id is empty; otherwise the sanitised id becomes the output
directory component (`output_dir = youtube_root / video_id`). -/
def resolveVideoId (metaId : Str) : Except PipelineError Str :=
  let videoId := sanitizeFolderComponent metaId
  if videoId = [] then
    .error ⟨("INVALID_URL".toList), ("Unable to resolve a single YouTube video id.".toList)⟩
  else
    .ok videoId

example : sanitizeFolderComponent ("_".toList) = ("unknown".toList) := by decide
example : specSanitize ("_".toList) = [] := by decide
example : isYoutubeUrl ("https://evil.com/youtube.com/x".toList) = true := by decide
example : specHostMatches ("https://evil.com/youtube.com/x".toList) = false := by decide
example : specHostMatches ("https://www.youtube.com/watch?v=A".toList) = true := by decide

/-! ## The job data model (`YouTubeJob`, youtube_pipeline.py lines 96-129)

Machine timestamps (`time.time()` / `time.monotonic()`) are modelled as
integers supplied by the caller; wall-clock strings (`utc_now()`) as
opaque strings supplied by the caller.  `progress` (a Python float that
only ever holds exact multiples of 1/100) is modelled as a rational. -/

/-- `status` values of a job. -/
inductive JStatus
  | queued | running | done | failed | cancelled
deriving DecidableEq, Repr

/-- `stage` values of a job. -/
inductive JStage
  | resolving | downloadingAudio | convertingAudio | transcribing | writingTranscript
  | extractingHooks | generatingDrafts | writingAssets | doneStage | failedStage | cancelledStage
deriving DecidableEq, Repr

/-- `_normalize_draft_tone`. -/
def normalizeDraftTone (raw : Str) : Str :=
  let normalized := lowerStr (stripWs raw)
  if normalized == ("professional".toList) || normalized == ("playful".toList)
     || normalized == ("direct".toList) then normalized
  else ("professional".toList)

/-- The mutable job record (the fields the claims are about; artifact paths,
the per-job cancel `Event` object and the attached process handle are not
modelled beyond the `cancelRequested` flag). -/
structure Job where
  jobId : Str
  videoUrl : Str
  languageHint : Str
  keepAudio : Bool
  asrEngine : Str
  asrModel : Str
  draftTone : Str
  status : JStatus
  stage : JStage
  progress : ℚ
  createdTs : ℤ
  updatedTs : ℤ
  createdAtUtc : Str
  updatedAtUtc : Str
  videoId : Str
  title : Str
  outputDir : Str
  summary : Option Str
  error : Option PipelineError
  cancelRequested : Bool
deriving DecidableEq, Repr

/-- `_is_terminal`. -/
def Job.isTerminal (j : Job) : Bool :=
  j.status == .done || j.status == .failed || j.status == .cancelled

/-- Python `round(x, 4)` on the job's progress.  (Python uses float
banker's rounding; every progress value the pipeline produces is an exact
multiple of 1/100, so no rounding tie ever arises.) -/
def round4 (q : ℚ) : ℚ := (round (q * 10000) : ℤ) / 10000

/-- The `JobView` produced by `_to_response`. -/
structure JobView where
  jobId : Str
  status : JStatus
  stage : JStage
  progress : ℚ
  videoId : Str
  title : Str
  outputDir : Str
  summary : Option Str
  error : Option PipelineError
  createdAtUtc : Str
  updatedAtUtc : Str
  keepAudio : Bool
deriving DecidableEq, Repr

/-- `_to_response`. -/
def toResponse (j : Job) : JobView :=
  { jobId := j.jobId, status := j.status, stage := j.stage
    progress := round4 j.progress
    videoId := j.videoId, title := j.title, outputDir := j.outputDir
    summary := j.summary, error := j.error
    createdAtUtc := j.createdAtUtc, updatedAtUtc := j.updatedAtUtc
    keepAudio := j.keepAudio }

/-- The in-memory job store: the dict `self._jobs` (modelled as a function),
the FIFO `self._order`, and the two eviction parameters.  The ids held in
`order` are pairwise distinct in every store the code builds (each job id
embeds a fresh 128-bit random hex), so `deque.remove` coincides with
removing every occurrence. -/
structure Store where
  jobs : Str → Option Job
  order : List Str
  maxHistory : Nat
  ttlSeconds : ℤ

/-- Update a dict entry. -/
def setJob (jobs : Str → Option Job) (id : Str) (j : Job) : Str → Option Job :=
  fun x => if x = id then some j else jobs x

/-- `dict.pop(id, None)`. -/
def popJob (jobs : Str → Option Job) (id : Str) : Str → Option Job :=
  fun x => if x = id then none else jobs x

/-- The `stale_ids` collected by the TTL phase of `_evict_locked`. -/
def staleIds (s : Store) (now : ℤ) : List Str :=
  s.order.filter (fun id =>
    match s.jobs id with
    | some j => j.isTerminal && decide (now - j.updatedTs > s.ttlSeconds)
    | none => false)

/-- The TTL phase of `_evict_locked` (lines 1843-1856): drop every terminal
job whose `now - updatedTs` exceeds the TTL. -/
def evictStale (s : Store) (now : ℤ) : Store :=
  let stale := staleIds s now
  { s with
    jobs := fun x => if x ∈ stale then none else s.jobs x
    order := s.order.filter (fun id => decide (id ∉ stale)) }

/-- The capacity phase of `_evict_locked` (lines 1858-1865): while the FIFO
exceeds `maxHistory` and its oldest entry is terminal (or dangling), pop
it; stop at the first active entry.  `fuel` bounds the loop (the caller
passes the FIFO length, which strictly decreases at every iteration). -/
def evictCapLoop : Nat → Store → Store
  | 0, s => s
  | fuel + 1, s =>
    if s.order.length ≤ s.maxHistory then s
    else
      match s.order with
      | [] => s
      | oldest :: rest =>
        match s.jobs oldest with
        | some j =>
          if j.isTerminal then
            evictCapLoop fuel { s with order := rest, jobs := popJob s.jobs oldest }
          else s
        | none => evictCapLoop fuel { s with order := rest, jobs := popJob s.jobs oldest }

/-- `_evict_locked`: TTL phase then capacity phase. -/
def evictLocked (s : Store) (now : ℤ) : Store :=
  let s1 := evictStale s now
  evictCapLoop s1.order.length s1

/-- `get_job` (lines 256-262): evict, then project the job to a view. -/
def getJob (s : Store) (now : ℤ) (jobId : Str) : Store × Option JobView :=
  let s1 := evictLocked s now
  match s1.jobs jobId with
  | none => (s1, none)
  | some j => (s1, some (toResponse j))

/-- `_mark_cancelled_locked` (lines 1753-1766). -/
def markCancelledLocked (j : Job) (message : Str) (now : ℤ) (nowUtc : Str) : Job :=
  if j.isTerminal then j
  else
    { j with
      status := .cancelled
      stage := .cancelledStage
      error := some ⟨("JOB_CANCELLED".toList), message⟩
      progress := max 0 (min 1 j.progress)
      updatedTs := now
      updatedAtUtc := nowUtc }

/-- `cancel_job` (lines 264-282).  Note: unlike `start_job` and `get_job`,
it does *not* call `_evict_locked`.  Killing the attached process is not
modelled. -/
def cancelJob (s : Store) (now : ℤ) (nowUtc : Str) (jobId : Str) : Store × Option JobView :=
  match s.jobs jobId with
  | none => (s, none)
  | some j =>
    if j.isTerminal then (s, some (toResponse j))
    else
      let j1 := { j with cancelRequested := true }
      let j2 :=
        if j1.status == .queued then
          markCancelledLocked j1 ("Cancelled before execution started.".toList) now nowUtc
        else { j1 with updatedTs := now, updatedAtUtc := nowUtc }
      ({ s with jobs := setJob s.jobs jobId j2 }, some (toResponse j2))

/-- The request arguments of `start_job`. -/
structure StartArgs where
  videoUrl : Str
  languageHint : Str
  keepAudio : Bool
  asrEngine : Str
  asrModel : Str
  draftTone : Str

/-- The freshly created `YouTubeJob` built by `start_job`. -/
def newJob (a : StartArgs) (jobId : Str) (now : ℤ) (nowUtc : Str) : Job :=
  { jobId := jobId
    videoUrl := stripWs a.videoUrl
    languageHint := stripWs a.languageHint
    keepAudio := a.keepAudio
    asrEngine := stripWs a.asrEngine
    asrModel := stripWs a.asrModel
    draftTone := normalizeDraftTone a.draftTone
    status := .queued, stage := .resolving, progress := 0
    createdTs := now, updatedTs := now
    createdAtUtc := nowUtc, updatedAtUtc := nowUtc
    videoId := [], title := [], outputDir := []
    summary := none, error := none, cancelRequested := false }

/-- `start_job` (lines 212-254): validate synchronously, then (and only
then) evict and register the new job.  The Python method raises on
validation failure, leaving the store untouched; this is modelled by
returning the input store alongside the error. -/
def startJob (s : Store) (a : StartArgs) (jobId : Str) (now : ℤ) (nowUtc : Str) :
    Store × Except PipelineError JobView :=
  if stripWs a.videoUrl = [] then
    (s, .error ⟨("INVALID_URL".toList), ("videoUrl is required.".toList)⟩)
  else if !(isYoutubeUrl a.videoUrl) then
    (s, .error ⟨("INVALID_URL".toList), ("videoUrl must be a valid YouTube URL.".toList)⟩)
  else if stripWs a.asrModel = [] then
    (s, .error ⟨("ASR_MODEL_UNAVAILABLE".toList), ("ASR model id/path is required.".toList)⟩)
  else
    let job := newJob a jobId now nowUtc
    let s1 := evictLocked s now
    ({ s1 with jobs := setJob s1.jobs jobId job, order := s1.order ++ [jobId] },
     .ok (toResponse job))

/-! ## Worker state transitions (`_set_stage`, `_mark_done`, `_mark_failed`) -/

/-- `_set_stage` (lines 1719-1734): skipped on terminal jobs; clamps the
progress into `[0, 1]`. -/
def setStage (j : Job) (stage : JStage) (progress : ℚ) (status : JStatus)
    (now : ℤ) (nowUtc : Str) : Job :=
  if j.isTerminal then j
  else
    { j with
      stage := stage
      status := status
      progress := max 0 (min 1 progress)
      updatedTs := now
      updatedAtUtc := nowUtc }

/-- `_mark_done` (lines 1736-1747). -/
def markDone (j : Job) (summary : Str) (now : ℤ) (nowUtc : Str) : Job :=
  if j.isTerminal then j
  else
    { j with
      status := .done
      stage := .doneStage
      progress := 1
      summary := some summary
      error := none
      updatedTs := now
      updatedAtUtc := nowUtc }

/-- `_mark_failed` (lines 1768-1782): the progress is left unchanged. -/
def markFailed (j : Job) (code message : Str) (now : ℤ) (nowUtc : Str) : Job :=
  if j.isTerminal then j
  else
    { j with
      status := .failed
      stage := .failedStage
      error := some ⟨code, message⟩
      updatedTs := now
      updatedAtUtc := nowUtc }

/-- The progress anchor each pipeline stage is set to by `_execute_pipeline`
(the worker calls `_set_stage(stage, anchor)` in this fixed order). -/
def anchorOf : JStage → ℚ
  | .resolving => 5/100
  | .downloadingAudio => 12/100
  | .convertingAudio => 20/100
  | .transcribing => 35/100
  | .writingTranscript => 38/100
  | .extractingHooks => 55/100
  | .generatingDrafts => 80/100
  | .writingAssets => 92/100
  | _ => 0

/-- The stage that follows a given pipeline stage in `_execute_pipeline`,
with its progress anchor. -/
def nextAnchor : JStage → Option (JStage × ℚ)
  | .resolving => some (.downloadingAudio, 12/100)
  | .downloadingAudio => some (.convertingAudio, 20/100)
  | .convertingAudio => some (.transcribing, 35/100)
  | .transcribing => some (.writingTranscript, 38/100)
  | .writingTranscript => some (.extractingHooks, 55/100)
  | .extractingHooks => some (.generatingDrafts, 80/100)
  | .generatingDrafts => some (.writingAssets, 92/100)
  | _ => none

/-- One observable mutation of a job record, as performed by the worker
(`_run_job_worker` / `_execute_pipeline`, which call the `_set_stage` /
`_mark_*` helpers in the fixed stage order) or by `cancel_job`.  The
`∨ isTerminal` alternatives reflect that a raced call on an
already-terminal job is a no-op inside the helpers themselves. -/
inductive JobStep : Job → Job → Prop
  | start (j : Job) (now : ℤ) (nowUtc : Str)
      (h : j.status = .queued ∨ j.isTerminal = true) :
      JobStep j (setStage j .resolving (5/100) .running now nowUtc)
  | advance (j : Job) (st : JStage) (p : ℚ) (now : ℤ) (nowUtc : Str)
      (hrun : j.status = .running ∨ j.isTerminal = true)
      (hnext : nextAnchor j.stage = some (st, p)) :
      JobStep j (setStage j st p .running now nowUtc)
  | finish (j : Job) (summary : Str) (now : ℤ) (nowUtc : Str)
      (hrun : j.status = .running ∨ j.isTerminal = true)
      (hst : j.stage = .writingAssets) :
      JobStep j (markDone j summary now nowUtc)
  | fail (j : Job) (code message : Str) (now : ℤ) (nowUtc : Str) :
      JobStep j (markFailed j code message now nowUtc)
  | cancelMark (j : Job) (message : Str) (now : ℤ) (nowUtc : Str) :
      JobStep j (markCancelledLocked j message now nowUtc)
  | cancelTouch (j : Job) (now : ℤ) (nowUtc : Str) (h : j.status = .running) :
      JobStep j { j with cancelRequested := true, updatedTs := now, updatedAtUtc := nowUtc }

/-- Job records reachable from a freshly created job through worker /
cancel transitions. -/
inductive ReachableJob : Job → Prop
  | init (a : StartArgs) (jobId : Str) (now : ℤ) (nowUtc : Str) :
      ReachableJob (newJob a jobId now nowUtc)
  | step {j j' : Job} : ReachableJob j → JobStep j j' → ReachableJob j'

/-! ## Claims C2 and C3 -/

theorem isYoutubeUrl_of_blank {url : Str} (h : stripWs url = []) :
    isYoutubeUrl url = false := by
  unfold isYoutubeUrl
  rw [h]
  decide

/-- An arbitrary concrete empty store, used by witnesses. -/
def storeEx : Store :=
  { jobs := fun _ => none
    order := []
    maxHistory := 100
    ttlSeconds := 86400 }

/-- C2 (amended): `start_job` fails synchronously with `INVALID_URL` exactly
when `_is_youtube_url` rejects the URL, that is when the trimmed lowercased
URL does not start with `http://` or `https://` or does not contain the
substring `youtube.com/` or `youtu.be/` (the host component is not
inspected); it fails with `ASR_MODEL_UNAVAILABLE` when the URL passes and
`asrModel` is blank; and whenever it fails, the job store is unchanged. -/
theorem c2_start_job_validation (s : Store) (a : StartArgs) (jobId : Str)
    (now : ℤ) (nowUtc : Str) :
    (isYoutubeUrl a.videoUrl = false →
      (startJob s a jobId now nowUtc).1 = s ∧
      ∃ e, (startJob s a jobId now nowUtc).2 = .error e ∧
        e.code = ("INVALID_URL".toList)) ∧
    (isYoutubeUrl a.videoUrl = true → stripWs a.asrModel = [] →
      (startJob s a jobId now nowUtc).1 = s ∧
      ∃ e, (startJob s a jobId now nowUtc).2 = .error e ∧
        e.code = ("ASR_MODEL_UNAVAILABLE".toList)) ∧
    (∀ e, (startJob s a jobId now nowUtc).2 = .error e →
      (startJob s a jobId now nowUtc).1 = s) := by
  unfold startJob
  by_cases h1 : stripWs a.videoUrl = []
  · refine ⟨fun _ => ?_, fun hyt _ => ?_, fun e _ => ?_⟩
    · simp [h1]
    · rw [isYoutubeUrl_of_blank h1] at hyt; cases hyt
    · simp [h1]
  · cases hyt : isYoutubeUrl a.videoUrl with
    | false =>
      refine ⟨fun _ => ?_, fun hcon _ => ?_, fun e _ => ?_⟩
      · simp [h1, hyt]
      · cases hcon
      · simp [h1, hyt]
    | true =>
      by_cases h3 : stripWs a.asrModel = []
      · refine ⟨fun hcon => ?_, fun _ _ => ?_, fun e _ => ?_⟩
        · cases hcon
        · simp [h1, hyt, h3]
        · simp [h1, hyt, h3]
      · refine ⟨fun hcon => ?_, fun _ hcon => ?_, fun e he => ?_⟩
        · cases hcon
        · exact absurd hcon h3
        · simp [h1, hyt, h3] at he

/-- Witness for `c2_start_job_validation`. -/
theorem c2_start_job_validation_witness :
    isYoutubeUrl ("notaurl".toList) = false ∧
    ((startJob storeEx
        ⟨("notaurl".toList), [], false, [], ("m".toList), []⟩
        ("j1".toList) 0 []).1 = storeEx ∧
      ∃ e, (startJob storeEx
        ⟨("notaurl".toList), [], false, [], ("m".toList), []⟩
        ("j1".toList) 0 []).2 = .error e ∧
        e.code = ("INVALID_URL".toList)) :=
  ⟨by decide,
   (c2_start_job_validation storeEx
      ⟨("notaurl".toList), [], false, [], ("m".toList), []⟩
      ("j1".toList) 0 []).1 (by decide)⟩

/-- The start_job arguments of the C2 counterexample: an URL whose host is
`evil.com` but whose path contains `youtube.com/`. -/
def c2CexArgs : StartArgs :=
  { videoUrl := ("https://evil.com/youtube.com/watch".toList)
    languageHint := []
    keepAudio := false
    asrEngine := []
    asrModel := ("m".toList)
    draftTone := [] }

/-- C2 (counterexample): the claim requires INVALID_URL for every URL whose
host does not match youtube.com / youtu.be, but `start_job` accepts an URL
with host `evil.com` because `_is_youtube_url` only tests for the
substring `youtube.com/` anywhere in the URL. -/
theorem c2_counterexample :
    specHostMatches c2CexArgs.videoUrl = false ∧
    (startJob storeEx c2CexArgs ("j1".toList) 0 []).2 =
      .ok (toResponse (newJob c2CexArgs ("j1".toList) 0 [])) := by
  constructor
  · decide
  · rfl

theorem sanitizeFolderComponent_ne_nil (raw : Str) :
    sanitizeFolderComponent raw ≠ [] := by
  unfold sanitizeFolderComponent
  by_cases h : stripUnderscores (sanitizeReplace raw) = []
  · simp [h]
  · rw [if_neg h]
    cases hc : stripUnderscores (sanitizeReplace raw) with
    | nil => exact absurd hc h
    | cons a t => simp

/-- C3 (amended): sanitisation never yields an empty id (the code maps empty
results to the literal `"unknown"`), so the `INVALID_URL` rejection at this
step is unreachable; for every resolved metadata id the output directory
component equals the sanitised id, which agrees with the spec's
sanitisation whenever the latter is non-empty. -/
theorem c3_video_id_resolution (metaId : Str) :
    resolveVideoId metaId = .ok (sanitizeFolderComponent metaId) ∧
    sanitizeFolderComponent metaId ≠ [] ∧
    (specSanitize metaId ≠ [] →
      sanitizeFolderComponent metaId = specSanitize metaId) := by
  refine ⟨?_, sanitizeFolderComponent_ne_nil metaId, ?_⟩
  · unfold resolveVideoId
    rw [if_neg (sanitizeFolderComponent_ne_nil metaId)]
  · intro hspec
    unfold sanitizeFolderComponent specSanitize at *
    by_cases h : stripUnderscores (sanitizeReplace metaId) = []
    · rw [h] at hspec
      simp at hspec
    · rw [if_neg h]

/-- Witness for `c3_video_id_resolution`. -/
theorem c3_video_id_resolution_witness :
    specSanitize ("abc".toList) ≠ [] ∧
    sanitizeFolderComponent ("abc".toList) = specSanitize ("abc".toList) :=
  ⟨by decide, (c3_video_id_resolution ("abc".toList)).2.2 (by decide)⟩

/-- C3 (counterexample): for the metadata id `"_"` the spec's sanitisation
is empty, yet the pipeline does not reject the job: it resolves the
directory component to `"unknown"`. -/
theorem c3_counterexample :
    specSanitize ("_".toList) = [] ∧
    resolveVideoId ("_".toList) = .ok ("unknown".toList) := by
  constructor
  · decide
  · rfl

/-! ## Claims C5 and C7: eviction lemmas -/

theorem evictStale_jobs_sub {s : Store} {now : ℤ} {id : Str} {j : Job}
    (h : (evictStale s now).jobs id = some j) : s.jobs id = some j := by
  unfold evictStale at h
  by_cases hc : id ∈ staleIds s now
  · simp [hc] at h
  · simpa [hc] using h

theorem evictStale_ttl {s : Store} {now : ℤ} {id : Str} {j : Job}
    (hmem : id ∈ (evictStale s now).order)
    (hj : (evictStale s now).jobs id = some j)
    (ht : j.isTerminal = true) : now - j.updatedTs ≤ s.ttlSeconds := by
  have hnotstale : id ∉ staleIds s now := by
    unfold evictStale at hmem
    simp only [List.mem_filter, decide_eq_true_eq] at hmem
    exact hmem.2
  have hjs : s.jobs id = some j := evictStale_jobs_sub hj
  have hmem0 : id ∈ s.order := by
    unfold evictStale at hmem
    simp only [List.mem_filter] at hmem
    exact hmem.1
  by_contra hgt
  apply hnotstale
  unfold staleIds
  rw [List.mem_filter]
  refine ⟨hmem0, ?_⟩
  rw [hjs]
  simp only [ht, Bool.true_and, decide_eq_true_eq]
  exact lt_of_not_le hgt

theorem evictStale_active {s : Store} {now : ℤ} {id : Str} {j : Job}
    (hj : s.jobs id = some j) (hact : j.isTerminal = false) :
    (evictStale s now).jobs id = some j := by
  have hnotstale : id ∉ staleIds s now := by
    intro hmem
    unfold staleIds at hmem
    rw [List.mem_filter] at hmem
    rw [hj] at hmem
    simp [hact] at hmem
  unfold evictStale
  simpa [hnotstale] using hj

theorem evictStale_order_active {s : Store} {now : ℤ} {id : Str} {j : Job}
    (hmem : id ∈ s.order) (hj : s.jobs id = some j) (hact : j.isTerminal = false) :
    id ∈ (evictStale s now).order := by
  have hnotstale : id ∉ staleIds s now := by
    intro hmem2
    unfold staleIds at hmem2
    rw [List.mem_filter] at hmem2
    rw [hj] at hmem2
    simp [hact] at hmem2
  unfold evictStale
  simp only [List.mem_filter, decide_eq_true_eq]
  exact ⟨hmem, hnotstale⟩

theorem evictCapLoop_jobs_sub :
    ∀ (fuel : Nat) (s : Store) (id : Str) (j : Job),
      (evictCapLoop fuel s).jobs id = some j → s.jobs id = some j := by
  intro fuel
  induction fuel with
  | zero => intro s id j h; exact h
  | succ n ih =>
    intro s id j h
    unfold evictCapLoop at h
    split at h
    · exact h
    · split at h
      · exact h
      · rename_i oldest rest _
        split at h
        · rename_i j' hj'
          split at h
          · have h2 := ih _ _ _ h
            simp only [popJob] at h2
            by_cases he : id = oldest
            · simp [he] at h2
            · simpa [he] using h2
          · exact h
        · have h2 := ih _ _ _ h
          simp only [popJob] at h2
          by_cases he : id = oldest
          · simp [he] at h2
          · simpa [he] using h2

theorem evictCapLoop_order_sub :
    ∀ (fuel : Nat) (s : Store) (id : Str),
      id ∈ (evictCapLoop fuel s).order → id ∈ s.order := by
  intro fuel
  induction fuel with
  | zero => intro s id h; exact h
  | succ n ih =>
    intro s id h
    unfold evictCapLoop at h
    split at h
    · exact h
    · split at h
      · exact h
      · rename_i oldest rest horder
        split at h
        · split at h
          · have h2 := ih _ _ h
            rw [horder]
            exact List.mem_cons_of_mem _ h2
          · exact h
        · have h2 := ih _ _ h
          rw [horder]
          exact List.mem_cons_of_mem _ h2

theorem evictCapLoop_fields :
    ∀ (fuel : Nat) (s : Store),
      (evictCapLoop fuel s).maxHistory = s.maxHistory ∧
      (evictCapLoop fuel s).ttlSeconds = s.ttlSeconds := by
  intro fuel
  induction fuel with
  | zero => intro s; exact ⟨rfl, rfl⟩
  | succ n ih =>
    intro s
    unfold evictCapLoop
    split
    · exact ⟨rfl, rfl⟩
    · split
      · exact ⟨rfl, rfl⟩
      · split
        · split
          · exact ih _
          · exact ⟨rfl, rfl⟩
        · exact ih _

theorem evictCapLoop_active :
    ∀ (fuel : Nat) (s : Store) (id : Str) (j : Job),
      s.jobs id = some j → j.isTerminal = false →
      (evictCapLoop fuel s).jobs id = some j := by
  intro fuel
  induction fuel with
  | zero => intro s id j hj _; exact hj
  | succ n ih =>
    intro s id j hj hact
    unfold evictCapLoop
    split
    · exact hj
    · split
      · exact hj
      · rename_i oldest rest _
        split
        · rename_i j' hj'
          split
          · rename_i hterm
            apply ih
            · simp only [popJob]
              by_cases he : id = oldest
              · subst he
                rw [hj] at hj'
                cases hj'
                rw [hact] at hterm
                cases hterm
              · simpa [he] using hj
            · exact hact
          · exact hj
        · rename_i hnone
          apply ih
          · simp only [popJob]
            by_cases he : id = oldest
            · subst he
              rw [hj] at hnone
              cases hnone
            · simpa [he] using hj
          · exact hact

theorem evictCapLoop_order_active :
    ∀ (fuel : Nat) (s : Store) (id : Str) (j : Job),
      id ∈ s.order → s.jobs id = some j → j.isTerminal = false →
      id ∈ (evictCapLoop fuel s).order := by
  intro fuel
  induction fuel with
  | zero => intro s id j hmem _ _; exact hmem
  | succ n ih =>
    intro s id j hmem hj hact
    unfold evictCapLoop
    split
    · exact hmem
    · split
      · exact hmem
      · rename_i oldest rest horder
        rw [horder] at hmem
        split
        · rename_i j' hj'
          split
          · rename_i hterm
            by_cases he : id = oldest
            · subst he
              rw [hj] at hj'
              cases hj'
              rw [hact] at hterm
              cases hterm
            · apply ih _ _ j
              · rcases List.mem_cons.mp hmem with h | h
                · exact absurd h he
                · exact h
              · simpa [popJob, he] using hj
              · exact hact
          · rw [horder]
            exact hmem
        · rename_i hnone
          by_cases he : id = oldest
          · subst he
            rw [hj] at hnone
            cases hnone
          · apply ih _ _ j
            · rcases List.mem_cons.mp hmem with h | h
              · exact absurd h he
              · exact h
            · simpa [popJob, he] using hj
            · exact hact

/-- After the capacity loop the store is within its cap, or its oldest
entry refers to an active job (which the loop refuses to evict). -/
def capOk (s : Store) : Prop :=
  s.order.length ≤ s.maxHistory ∨
  ∃ hd tl j, s.order = hd :: tl ∧ s.jobs hd = some j ∧ j.isTerminal = false

theorem evictCapLoop_post :
    ∀ (fuel : Nat) (s : Store), s.order.length ≤ fuel →
      capOk (evictCapLoop fuel s) := by
  intro fuel
  induction fuel with
  | zero =>
    intro s hlen
    left
    simpa using Nat.le_trans (Nat.le_of_eq rfl) (Nat.le_trans hlen (Nat.zero_le _))
  | succ n ih =>
    intro s hlen
    unfold evictCapLoop
    split
    · rename_i hle
      exact Or.inl hle
    · rename_i hgt
      split
      · rename_i hnil
        rw [hnil] at hgt
        simp at hgt
      · rename_i oldest rest horder
        split
        · rename_i j' hj'
          split
          · apply ih
            rw [horder] at hlen
            simpa using Nat.le_of_succ_le_succ hlen
          · rename_i hterm
            right
            refine ⟨oldest, rest, j', horder, hj', ?_⟩
            cases hterm2 : j'.isTerminal with
            | false => rfl
            | true => exact absurd hterm2 hterm
        · apply ih
          rw [horder] at hlen
          simpa using Nat.le_of_succ_le_succ hlen

theorem evictLocked_jobs_sub {s : Store} {now : ℤ} {id : Str} {j : Job}
    (h : (evictLocked s now).jobs id = some j) : s.jobs id = some j :=
  evictStale_jobs_sub (evictCapLoop_jobs_sub _ _ _ _ h)

theorem evictLocked_jobs_cases (s : Store) (now : ℤ) (id : Str) :
    (evictLocked s now).jobs id = none ∨
    (evictLocked s now).jobs id = s.jobs id := by
  cases h : (evictLocked s now).jobs id with
  | none => exact Or.inl rfl
  | some j => exact Or.inr ((evictLocked_jobs_sub h).symm)

theorem evictLocked_ttl {s : Store} {now : ℤ} {id : Str} {j : Job}
    (hmem : id ∈ (evictLocked s now).order)
    (hj : (evictLocked s now).jobs id = some j)
    (ht : j.isTerminal = true) : now - j.updatedTs ≤ s.ttlSeconds := by
  unfold evictLocked at hmem hj
  exact evictStale_ttl (evictCapLoop_order_sub _ _ _ hmem)
    (evictCapLoop_jobs_sub _ _ _ _ hj) ht

theorem evictLocked_active {s : Store} {now : ℤ} {id : Str} {j : Job}
    (hj : s.jobs id = some j) (hact : j.isTerminal = false) :
    (evictLocked s now).jobs id = some j :=
  evictCapLoop_active _ _ _ _ (evictStale_active hj hact) hact

theorem evictLocked_order_active {s : Store} {now : ℤ} {id : Str} {j : Job}
    (hmem : id ∈ s.order) (hj : s.jobs id = some j) (hact : j.isTerminal = false) :
    id ∈ (evictLocked s now).order :=
  evictCapLoop_order_active _ _ _ j
    (evictStale_order_active hmem hj hact) (evictStale_active hj hact) hact

theorem evictLocked_capOk (s : Store) (now : ℤ) : capOk (evictLocked s now) :=
  evictCapLoop_post _ _ (Nat.le_refl _)

theorem getJob_fst (s : Store) (now : ℤ) (id : Str) :
    (getJob s now id).1 = evictLocked s now := by
  unfold getJob
  cases h : (evictLocked s now).jobs id <;> simp [h]

/-- A concrete terminal (Done) job, used by witnesses and counterexamples. -/
def doneJobEx : Job :=
  { jobId := ("a".toList)
    videoUrl := ("https://youtu.be/x".toList)
    languageHint := []
    keepAudio := false
    asrEngine := []
    asrModel := ("m".toList)
    draftTone := ("professional".toList)
    status := .done
    stage := .doneStage
    progress := 1
    createdTs := 0
    updatedTs := 0
    createdAtUtc := []
    updatedAtUtc := []
    videoId := ("x".toList)
    title := []
    outputDir := []
    summary := some []
    error := none
    cancelRequested := false }

/-- A store holding just `doneJobEx`, with a 300-second TTL. -/
def doneStoreEx : Store :=
  { jobs := fun x => if x = ("a".toList) then some doneJobEx else none
    order := [("a".toList)]
    maxHistory := 100
    ttlSeconds := 300 }

/-- C5: `cancel_job` is idempotent on terminal jobs: after a `get_job`, a
`cancel_job` on a terminal job returns the very view `get_job` returned,
mutates nothing in the store, and a second `cancel_job` returns the same
result again. -/
theorem c5_cancel_idempotent_terminal (s : Store) (id : Str) (j : Job)
    (now1 now2 now3 : ℤ) (u2 u3 : Str)
    (hj : s.jobs id = some j) (ht : j.isTerminal = true) :
    (cancelJob (getJob s now1 id).1 now2 u2 id).2 = (getJob s now1 id).2 ∧
    (cancelJob (getJob s now1 id).1 now2 u2 id).1 = (getJob s now1 id).1 ∧
    cancelJob (cancelJob (getJob s now1 id).1 now2 u2 id).1 now3 u3 id
      = cancelJob (getJob s now1 id).1 now2 u2 id := by
  rcases evictLocked_jobs_cases s now1 id with hnone | heq
  · unfold getJob cancelJob
    simp [hnone]
  · have hsome : (evictLocked s now1).jobs id = some j := heq.trans hj
    unfold getJob cancelJob
    simp [hsome, ht]

/-- Witness for `c5_cancel_idempotent_terminal`. -/
theorem c5_cancel_idempotent_terminal_witness :
    doneStoreEx.jobs ("a".toList) = some doneJobEx ∧
    doneJobEx.isTerminal = true ∧
    (cancelJob (getJob doneStoreEx 100 ("a".toList)).1 200 [] ("a".toList)).2
      = (getJob doneStoreEx 100 ("a".toList)).2 :=
  ⟨rfl, rfl,
   (c5_cancel_idempotent_terminal doneStoreEx ("a".toList) doneJobEx
      100 200 300 [] [] rfl rfl).1⟩

/-- C7 (amended): `get_job` and the success path of `start_job` first run
eviction under the lock --- afterwards no FIFO entry refers to a terminal
job older than the TTL, and the FIFO is within the history cap unless its
oldest entry is an active job; eviction never removes an active job.
`cancel_job`, however, performs no eviction at all: it leaves the FIFO
unchanged and never removes a stored job. -/
theorem c7_eviction_policy (s : Store) (now : ℤ) (qid : Str) :
    (∀ id j, id ∈ (getJob s now qid).1.order →
       (getJob s now qid).1.jobs id = some j →
       j.isTerminal = true → now - j.updatedTs ≤ s.ttlSeconds) ∧
    capOk (getJob s now qid).1 ∧
    (∀ id j, s.jobs id = some j → j.isTerminal = false →
       (getJob s now qid).1.jobs id = some j ∧
       (id ∈ s.order → id ∈ (getJob s now qid).1.order)) ∧
    (∀ a jobId nowUtc v id j,
       (startJob s a jobId now nowUtc).2 = .ok v →
       id ∈ (startJob s a jobId now nowUtc).1.order →
       (startJob s a jobId now nowUtc).1.jobs id = some j →
       j.isTerminal = true → now - j.updatedTs ≤ s.ttlSeconds) ∧
    (∀ nowUtc, (cancelJob s now nowUtc qid).1.order = s.order ∧
       ∀ id, (cancelJob s now nowUtc qid).1.jobs id = none → s.jobs id = none) := by
  refine ⟨?_, ?_, ?_, ?_, ?_⟩
  · intro id j hmem hjob ht
    rw [getJob_fst] at hmem hjob
    exact evictLocked_ttl hmem hjob ht
  · rw [getJob_fst]
    exact evictLocked_capOk s now
  · intro id j hj hact
    rw [getJob_fst]
    exact ⟨evictLocked_active hj hact, fun hm => evictLocked_order_active hm hj hact⟩
  · intro a jobId nowUtc v id j hok hmem hjob ht
    by_cases h1 : stripWs a.videoUrl = []
    · simp only [startJob, if_pos h1] at hok
      cases hok
    · cases hyt : isYoutubeUrl a.videoUrl with
      | false =>
        simp only [startJob, if_neg h1, hyt, Bool.not_false, if_pos] at hok
        cases hok
      | true =>
        by_cases h3 : stripWs a.asrModel = []
        · simp only [startJob, if_neg h1, hyt, Bool.not_true, Bool.false_eq_true,
            if_false, if_pos h3] at hok
          cases hok
        · simp only [startJob, if_neg h1, hyt, Bool.not_true, Bool.false_eq_true,
            if_false, if_neg h3] at hmem hjob
          rw [List.mem_append] at hmem
          by_cases he : id = jobId
          · subst he
            simp only [setJob, if_pos rfl] at hjob
            cases hjob
            simp [Job.isTerminal, newJob] at ht
          · simp only [setJob, if_neg he] at hjob
            rcases hmem with hm | hm
            · exact evictLocked_ttl hm hjob ht
            · rw [List.mem_singleton] at hm
              exact absurd hm he
  · intro nowUtc
    cases h : s.jobs qid with
    | none =>
      simp only [cancelJob, h]
      exact ⟨trivial, fun id h2 => h2⟩
    | some j =>
      cases hterm : j.isTerminal with
      | true =>
        simp only [cancelJob, h, hterm, if_true]
        exact ⟨trivial, fun id h2 => h2⟩
      | false =>
        simp only [cancelJob, h, hterm, Bool.false_eq_true, if_false]
        refine ⟨trivial, fun id h2 => ?_⟩
        simp only [setJob] at h2
        by_cases he : id = qid
        · rw [if_pos he] at h2
          cases h2
        · rw [if_neg he] at h2
          exact h2

/-- Witness for `c7_eviction_policy`. -/
def runningJobEx : Job :=
  { doneJobEx with
    jobId := ("b".toList)
    status := .running
    stage := .downloadingAudio
    progress := 12/100
    summary := none }

/-- A store holding one active (Running) job older than the TTL. -/
def runningStoreEx : Store :=
  { jobs := fun x => if x = ("b".toList) then some runningJobEx else none
    order := [("b".toList)]
    maxHistory := 100
    ttlSeconds := 300 }

/-- Witness for `c7_eviction_policy`: an active job survives eviction. -/
theorem c7_eviction_policy_witness :
    (getJob runningStoreEx 1000 ("b".toList)).1.jobs ("b".toList)
      = some runningJobEx :=
  ((c7_eviction_policy runningStoreEx 1000 ("b".toList)).2.2.1
    ("b".toList) runningJobEx rfl rfl).1

/-- C7 (counterexample): the claim says `cancel_job` also evicts first, but
on a store holding one expired terminal job, `cancel_job` returns the job's
view and leaves it stored, while `get_job` (which does evict) removes it. -/
theorem c7_counterexample :
    doneJobEx.isTerminal = true ∧
    ((1000 : ℤ) - doneJobEx.updatedTs > doneStoreEx.ttlSeconds) ∧
    (cancelJob doneStoreEx 1000 [] ("a".toList)).1.jobs ("a".toList)
      = some doneJobEx ∧
    (getJob doneStoreEx 1000 ("a".toList)).1.jobs ("a".toList) = none := by
  refine ⟨rfl, by decide, by decide, by decide⟩

/-! ## Claim C6: progress monotonicity and the Done ⇔ 1.0 law -/

theorem isTerminal_queued {j : Job} (h : j.status = .queued) :
    j.isTerminal = false := by
  simp [Job.isTerminal, h]

theorem isTerminal_running {j : Job} (h : j.status = .running) :
    j.isTerminal = false := by
  simp [Job.isTerminal, h]

theorem status_of_not_terminal {j : Job} (h : j.isTerminal = false) :
    j.status = .queued ∨ j.status = .running := by
  cases hs : j.status
  · exact Or.inl rfl
  · exact Or.inr rfl
  all_goals simp [Job.isTerminal, hs] at h

theorem setStage_terminal {j : Job} (h : j.isTerminal = true)
    (st : JStage) (p : ℚ) (stat : JStatus) (now : ℤ) (u : Str) :
    setStage j st p stat now u = j := by
  simp [setStage, h]

theorem markDone_terminal {j : Job} (h : j.isTerminal = true)
    (summary : Str) (now : ℤ) (u : Str) : markDone j summary now u = j := by
  simp [markDone, h]

theorem markFailed_terminal {j : Job} (h : j.isTerminal = true)
    (code message : Str) (now : ℤ) (u : Str) : markFailed j code message now u = j := by
  simp [markFailed, h]

theorem markCancelledLocked_terminal {j : Job} (h : j.isTerminal = true)
    (message : Str) (now : ℤ) (u : Str) : markCancelledLocked j message now u = j := by
  simp [markCancelledLocked, h]

theorem anchorOf_nonneg (st : JStage) : 0 ≤ anchorOf st := by
  cases st <;> norm_num [anchorOf]

theorem anchorOf_le (st : JStage) : anchorOf st ≤ 92/100 := by
  cases st <;> norm_num [anchorOf]

theorem clamp_of_bounds {x : ℚ} (h0 : 0 ≤ x) (h1 : x ≤ 1) :
    max 0 (min 1 x) = x := by
  rw [min_eq_right h1, max_eq_right h0]

/-- The state invariant tying each status to its possible progress values:
queued jobs sit at 0, running jobs sit exactly at their stage's anchor,
failed or cancelled jobs keep a pre-terminal progress (at most 0.92), and
done jobs sit at exactly 1. -/
def JobInv (j : Job) : Prop :=
  (j.status = .queued → j.progress = 0) ∧
  (j.status = .running → j.progress = anchorOf j.stage) ∧
  ((j.status = .failed ∨ j.status = .cancelled) →
    0 ≤ j.progress ∧ j.progress ≤ 92/100) ∧
  (j.status = .done → j.progress = 1)

theorem jobInv_init (a : StartArgs) (jobId : Str) (now : ℤ) (nowUtc : Str) :
    JobInv (newJob a jobId now nowUtc) :=
  ⟨fun _ => rfl, by simp [newJob], by simp [newJob], by simp [newJob]⟩

theorem jobInv_step {j j' : Job} (hinv : JobInv j) (hstep : JobStep j j') :
    JobInv j' := by
  cases hstep with
  | start now nowUtc h =>
    rcases h with hqs | hterm
    · have hterm' : j.isTerminal = false := isTerminal_queued hqs
      simp only [setStage, hterm', Bool.false_eq_true, if_false]
      exact ⟨by simp, fun _ => by norm_num [anchorOf], by simp, by simp⟩
    · rw [setStage_terminal hterm]
      exact hinv
  | advance st p now nowUtc hrun hnext =>
    rcases hrun with hrun | hterm
    · have hterm' : j.isTerminal = false := isTerminal_running hrun
      simp only [setStage, hterm', Bool.false_eq_true, if_false]
      refine ⟨by simp, fun _ => ?_, by simp, by simp⟩
      cases hst : j.stage <;> rw [hst] at hnext <;>
        simp only [nextAnchor, Option.some.injEq, Prod.mk.injEq,
          reduceCtorEq] at hnext <;>
        (obtain ⟨rfl, rfl⟩ := hnext
         rw [clamp_of_bounds (by norm_num) (by norm_num)]
         norm_num [anchorOf])
    · rw [setStage_terminal hterm]
      exact hinv
  | finish summary now nowUtc hrun hst =>
    rcases hrun with hrun | hterm
    · have hterm' : j.isTerminal = false := isTerminal_running hrun
      simp only [markDone, hterm', Bool.false_eq_true, if_false]
      exact ⟨by simp, by simp, by simp, fun _ => rfl⟩
    · rw [markDone_terminal hterm]
      exact hinv
  | fail code message now nowUtc =>
    cases hterm : j.isTerminal with
    | true =>
      rw [markFailed_terminal hterm]
      exact hinv
    | false =>
      obtain ⟨hq, hr, hfc, hd⟩ := hinv
      simp only [markFailed, hterm, Bool.false_eq_true, if_false]
      refine ⟨by simp, by simp, fun _ => ?_, by simp⟩
      rcases status_of_not_terminal hterm with hs | hs
      · rw [hq hs]
        norm_num
      · rw [hr hs]
        exact ⟨anchorOf_nonneg _, anchorOf_le _⟩
  | cancelMark message now nowUtc =>
    cases hterm : j.isTerminal with
    | true =>
      rw [markCancelledLocked_terminal hterm]
      exact hinv
    | false =>
      obtain ⟨hq, hr, hfc, hd⟩ := hinv
      simp only [markCancelledLocked, hterm, Bool.false_eq_true, if_false]
      refine ⟨by simp, by simp, fun _ => ?_, by simp⟩
      refine ⟨le_max_left 0 _, ?_⟩
      rcases status_of_not_terminal hterm with hs | hs
      · rw [hq hs]
        norm_num
      · rw [hr hs]
        rw [clamp_of_bounds (anchorOf_nonneg _)
          (le_trans (anchorOf_le _) (by norm_num))]
        exact anchorOf_le _
  | cancelTouch now nowUtc h =>
    exact hinv

theorem jobInv_reachable {j : Job} (h : ReachableJob j) : JobInv j := by
  induction h with
  | init a jobId now nowUtc => exact jobInv_init a jobId now nowUtc
  | step hr hs ih => exact jobInv_step ih hs

theorem jobInv_bounds {j : Job} (hinv : JobInv j) :
    0 ≤ j.progress ∧ j.progress ≤ 1 := by
  obtain ⟨hq, hr, hfc, hd⟩ := hinv
  cases hs : j.status with
  | queued =>
    rw [hq hs]
    norm_num
  | running =>
    rw [hr hs]
    exact ⟨anchorOf_nonneg _, le_trans (anchorOf_le _) (by norm_num)⟩
  | done =>
    rw [hd hs]
    norm_num
  | failed =>
    obtain ⟨h0, h92⟩ := hfc (Or.inl hs)
    exact ⟨h0, le_trans h92 (by norm_num)⟩
  | cancelled =>
    obtain ⟨h0, h92⟩ := hfc (Or.inr hs)
    exact ⟨h0, le_trans h92 (by norm_num)⟩

theorem jobStep_progress_mono {j j' : Job} (hinv : JobInv j)
    (hstep : JobStep j j') : j.progress ≤ j'.progress := by
  obtain ⟨hq, hr, hfc, hd⟩ := hinv
  cases hstep with
  | start now nowUtc h =>
    rcases h with hqs | hterm
    · have hterm' : j.isTerminal = false := isTerminal_queued hqs
      simp only [setStage, hterm', Bool.false_eq_true, if_false]
      rw [hq hqs]
      norm_num
    · rw [setStage_terminal hterm]
  | advance st p now nowUtc hrun hnext =>
    rcases hrun with hrun | hterm
    · have hterm' : j.isTerminal = false := isTerminal_running hrun
      simp only [setStage, hterm', Bool.false_eq_true, if_false]
      rw [hr hrun]
      cases hst : j.stage <;> rw [hst] at hnext <;>
        simp only [nextAnchor, Option.some.injEq, Prod.mk.injEq,
          reduceCtorEq] at hnext <;>
        (obtain ⟨rfl, rfl⟩ := hnext
         rw [clamp_of_bounds (by norm_num) (by norm_num)]
         norm_num [anchorOf])
    · rw [setStage_terminal hterm]
  | finish summary now nowUtc hrun hst =>
    rcases hrun with hrun | hterm
    · have hterm' : j.isTerminal = false := isTerminal_running hrun
      simp only [markDone, hterm', Bool.false_eq_true, if_false]
      rw [hr hrun]
      exact le_trans (anchorOf_le _) (by norm_num)
    · rw [markDone_terminal hterm]
  | fail code message now nowUtc =>
    cases hterm : j.isTerminal with
    | true =>
      rw [markFailed_terminal hterm]
    | false =>
      simp only [markFailed, hterm, Bool.false_eq_true, if_false]
      exact le_refl _
  | cancelMark message now nowUtc =>
    cases hterm : j.isTerminal with
    | true =>
      rw [markCancelledLocked_terminal hterm]
    | false =>
      simp only [markCancelledLocked, hterm, Bool.false_eq_true, if_false]
      rcases status_of_not_terminal hterm with hs | hs
      · rw [hq hs]
        norm_num
      · rw [hr hs]
        rw [clamp_of_bounds (anchorOf_nonneg _)
          (le_trans (anchorOf_le _) (by norm_num))]
  | cancelTouch now nowUtc h =>
    exact le_refl _

/-- C6: for every reachable job the progress stays within [0, 1] and equals
exactly 1 iff the status is Done; and no worker or cancel transition ever
decreases the progress (terminal states are never mutated at all, since
every helper skips terminal jobs). -/
theorem c6_progress_invariant :
    (∀ j : Job, ReachableJob j →
       0 ≤ j.progress ∧ j.progress ≤ 1 ∧
       (j.status = .done ↔ j.progress = 1)) ∧
    (∀ j j' : Job, ReachableJob j → JobStep j j' →
       j.progress ≤ j'.progress) := by
  constructor
  · intro j hreach
    have hinv := jobInv_reachable hreach
    obtain ⟨h0, h1⟩ := jobInv_bounds hinv
    obtain ⟨hq, hr, hfc, hd⟩ := hinv
    refine ⟨h0, h1, hd, ?_⟩
    intro hp1
    cases hs : j.status with
    | done => rfl
    | queued =>
      rw [hq hs] at hp1
      norm_num at hp1
    | running =>
      have hle := anchorOf_le j.stage
      rw [← hr hs, hp1] at hle
      norm_num at hle
    | failed =>
      have hle := (hfc (Or.inl hs)).2
      rw [hp1] at hle
      norm_num at hle
    | cancelled =>
      have hle := (hfc (Or.inr hs)).2
      rw [hp1] at hle
      norm_num at hle
  · intro j j' hreach hstep
    exact jobStep_progress_mono (jobInv_reachable hreach) hstep

/-- Witness for `c6_progress_invariant`. -/
theorem c6_progress_invariant_witness :
    0 ≤ (newJob ⟨[], [], false, [], [], []⟩ [] 0 []).progress ∧
    (newJob ⟨[], [], false, [], [], []⟩ [] 0 []).progress ≤ 1 ∧
    ((newJob ⟨[], [], false, [], [], []⟩ [] 0 []).status = .done ↔
      (newJob ⟨[], [], false, [], [], []⟩ [] 0 []).progress = 1) :=
  c6_progress_invariant.1 _ (.init ⟨[], [], false, [], [], []⟩ [] 0 [])

/-! ## Claim C8: the smart excerpt (`_build_smart_excerpt`, lines 1230-1255) -/

/-- The excerpt separator `"\n[...]\n"` (7 characters). -/
def separatorStr : Str := ("\n[...]\n".toList)

/-- `_build_smart_excerpt`: return the (stripped) transcript whole when it
fits in `maxChars`; otherwise head + separator + middle + separator + tail
with slice size `min(2000, (maxChars - 2*|sep|) // 3)`, the middle slice
centred on the transcript midpoint; degenerate budgets fall back to a
plain prefix of length `maxChars`. -/
def buildSmartExcerpt (transcriptText : Str) (maxChars : ℤ) : Str :=
  let transcript := stripWs transcriptText
  if maxChars ≤ 0 ∨ (transcript.length : ℤ) ≤ maxChars then transcript
  else
    let sepTotal : ℤ := (separatorStr.length : ℤ) * 2
    if maxChars ≤ sepTotal + 3 then transcript.take maxChars.toNat
    else
      let targetSliceSize : ℤ := 2000
      let available := maxChars - sepTotal
      let sliceSize := min targetSliceSize (available / 3)
      if sliceSize < 1 then transcript.take maxChars.toNat
      else
        let n := sliceSize.toNat
        let head := transcript.take n
        let midStart := max 0 ((transcript.length : ℤ) / 2 - sliceSize / 2)
        let middle := (transcript.drop midStart.toNat).take n
        let tail := transcript.drop (transcript.length - n)
        head ++ separatorStr ++ middle ++ separatorStr ++ tail

/-- C8: for every (stripped) transcript and every `maxChars` value
`m ≥ 2000` --- as guaranteed by `_extract_hooks`, which passes
`max(2000, max_input_chars)` --- the excerpt is the whole transcript when
it fits, and otherwise is head + sep + middle + sep + tail where all three
slices have length exactly `min 2000 ((m - 14) / 3)` (the separator is 7
characters), the head is a prefix, the tail a suffix, and the middle is
centred on the midpoint; in all cases the excerpt length is at most `m`.
The degenerate plain-prefix fallback cannot trigger for `m ≥ 2000`. -/
theorem c8_smart_excerpt (t : Str) (m : ℕ)
    (htrim : stripWs t = t) (hm : 2000 ≤ m) :
    (t.length ≤ m → buildSmartExcerpt t (m : ℤ) = t) ∧
    (m < t.length →
      buildSmartExcerpt t (m : ℤ) =
        t.take (min 2000 ((m - 14) / 3)) ++ separatorStr ++
        (t.drop (t.length / 2 - min 2000 ((m - 14) / 3) / 2)).take
          (min 2000 ((m - 14) / 3)) ++ separatorStr ++
        t.drop (t.length - min 2000 ((m - 14) / 3)) ∧
      (t.take (min 2000 ((m - 14) / 3))).length = min 2000 ((m - 14) / 3) ∧
      ((t.drop (t.length / 2 - min 2000 ((m - 14) / 3) / 2)).take
          (min 2000 ((m - 14) / 3))).length = min 2000 ((m - 14) / 3) ∧
      (t.drop (t.length - min 2000 ((m - 14) / 3))).length
        = min 2000 ((m - 14) / 3)) ∧
    (buildSmartExcerpt t (m : ℤ)).length ≤ m := by
  have hsep : separatorStr.length = 7 := rfl
  have h14 : (14 : ℕ) ≤ m := le_trans (by norm_num) hm
  have hcast : ((min 2000 ((m - 14) / 3) : ℕ) : ℤ)
      = min 2000 (((m : ℤ) - 14) / 3) := by
    omega
  have hn662 : 662 ≤ min 2000 ((m - 14) / 3) := by omega
  have hfit : ∀ h : t.length ≤ m, buildSmartExcerpt t (m : ℤ) = t := by
    intro h
    unfold buildSmartExcerpt
    rw [htrim]
    rw [if_pos (Or.inr (by exact_mod_cast h))]
  constructor
  · exact hfit
  · have hbig : m < t.length →
        buildSmartExcerpt t (m : ℤ) =
          t.take (min 2000 ((m - 14) / 3)) ++ separatorStr ++
          (t.drop (t.length / 2 - min 2000 ((m - 14) / 3) / 2)).take
            (min 2000 ((m - 14) / 3)) ++ separatorStr ++
          t.drop (t.length - min 2000 ((m - 14) / 3)) := by
      intro hlt
      unfold buildSmartExcerpt
      rw [htrim]
      rw [if_neg (by omega)]
      rw [if_neg (by rw [hsep]; omega)]
      rw [if_neg (by rw [hsep]; omega)]
      rw [hsep]
      have htonat : (min (2000 : ℤ) (((m : ℤ) - (7 : ℕ) * 2) / 3)).toNat
          = min 2000 ((m - 14) / 3) := by omega
      rw [htonat]
      have hmid : (max 0 ((t.length : ℤ) / 2
            - min (2000 : ℤ) (((m : ℤ) - (7 : ℕ) * 2) / 3) / 2)).toNat
          = t.length / 2 - min 2000 ((m - 14) / 3) / 2 := by omega
      simp only [hmid]
    refine ⟨?_, ?_⟩
    · intro hlt
      have hlen1 : (t.take (min 2000 ((m - 14) / 3))).length
          = min 2000 ((m - 14) / 3) := by
        rw [List.length_take]
        omega
      have hlen3 : (t.drop (t.length - min 2000 ((m - 14) / 3))).length
          = min 2000 ((m - 14) / 3) := by
        rw [List.length_drop]
        omega
      have hlen2 : ((t.drop (t.length / 2 - min 2000 ((m - 14) / 3) / 2)).take
            (min 2000 ((m - 14) / 3))).length = min 2000 ((m - 14) / 3) := by
        rw [List.length_take, List.length_drop]
        omega
      exact ⟨hbig hlt, hlen1, hlen2, hlen3⟩
    · by_cases hle : t.length ≤ m
      · rw [hfit hle]
        exact hle
      · have hlt : m < t.length := by omega
        rw [hbig hlt]
        simp only [List.length_append, List.length_take, List.length_drop, hsep]
        omega

/-- Witness for `c8_smart_excerpt`. -/
theorem c8_smart_excerpt_witness :
    buildSmartExcerpt ("abc".toList) ((2000 : ℕ) : ℤ) = ("abc".toList) :=
  (c8_smart_excerpt ("abc".toList) 2000 (by decide) (by decide)).1 (by decide)

/-! ## A model of Python JSON values (shared by claims C1, C9, C10)

JSON numbers are modelled as integers; no verified property depends on a
numeric value.  Python dicts are association lists with distinct keys (as
`json.loads` produces). -/

/-- A value produced by Python's `json.loads`. -/
inductive JVal
  | jnull
  | jbool (b : Bool)
  | jnum (n : ℤ)
  | jstr (s : Str)
  | jarr (xs : List JVal)
  | jobj (fields : List (Str × JVal))

/-- `dict.get(key)` on a parsed JSON object. -/
def jget (fields : List (Str × JVal)) (key : Str) : Option JVal :=
  (fields.find? (fun p => p.1 == key)).map (fun p => p.2)

/-- `dict.get(key)` with Python's `None` default. -/
def pyGet (fields : List (Str × JVal)) (key : Str) : JVal :=
  (jget fields key).getD .jnull

/-- Python truthiness of a JSON value. -/
def pyTruthy : JVal → Bool
  | .jnull => false
  | .jbool b => b
  | .jnum n => !(n == 0)
  | .jstr s => !(s.isEmpty)
  | .jarr xs => !(xs.isEmpty)
  | .jobj fs => !(fs.isEmpty)

/-- Python `x or y` on JSON values. -/
def pyOr (a b : JVal) : JVal := if pyTruthy a then a else b

mutual

/-- Python `repr` of a JSON value (escaping inside the quoted strings of
container reprs is not modelled; it affects only the text of synthesized
fields, never their emptiness). -/
def pyRepr : JVal → Str
  | .jnull => ("None".toList)
  | .jbool true => ("True".toList)
  | .jbool false => ("False".toList)
  | .jnum n => (toString n).toList
  | .jstr s => '\x27' :: s ++ ['\x27']
  | .jarr xs => '[' :: pyReprList xs ++ [']']
  | .jobj fs => '\x7b' :: pyReprFields fs ++ ['\x7d']

/-- Python `repr` of the elements of a list, comma separated. -/
def pyReprList : List JVal → Str
  | [] => []
  | [x] => pyRepr x
  | x :: y :: xs => pyRepr x ++ (", ".toList) ++ pyReprList (y :: xs)

/-- Python `repr` of the entries of a dict, comma separated. -/
def pyReprFields : List (Str × JVal) → Str
  | [] => []
  | [(k, v)] => ('\x27' :: k ++ ['\x27']) ++ (": ".toList) ++ pyRepr v
  | (k, v) :: f :: fs =>
      ('\x27' :: k ++ ['\x27']) ++ (": ".toList) ++ pyRepr v
        ++ (", ".toList) ++ pyReprFields (f :: fs)

end

/-- Python `str` of a JSON value. -/
def pyStr : JVal → Str
  | .jstr s => s
  | v => pyRepr v

/-! ## Claim C9: manifest verification (server.py lines 44-47, 192-305) -/

/-- Truthiness of `ST_VOICE_ALLOW_UNSAFE_ARTIFACTS` (server.py line 45):
truthy iff the trimmed lowercased value is `1`, `true`, `yes` or `on`. -/
def unsafeArtifactsAllowed (envValue : Str) : Bool :=
  let v := lowerStr (stripWs envValue)
  v == ("1".toList) || v == ("true".toList) || v == ("yes".toList) || v == ("on".toList)

/-- `BLOCKED_ARTIFACT_EXTENSIONS`. -/
def blockedArtifactExtensions : List Str := [(".pt".toList), (".pth".toList)]

/-- Python `value.replace("\\", "/")`. -/
def normalizeSlashes (s : Str) : Str :=
  s.map (fun c => if c = '\\' then '/' else c)

/-- Python `str.split(sep)` for a one-character separator. -/
def splitOnChar (sep : Char) : Str → List Str
  | [] => [[]]
  | c :: cs =>
    if c = sep then [] :: splitOnChar sep cs
    else
      match splitOnChar sep cs with
      | [] => [[c]]
      | h :: t => (c :: h) :: t

/-- `is_path_safe_relative` (server.py lines 192-196). -/
def isPathSafeRelative (value : Str) : Bool :=
  if value.isEmpty || startsWithStr ("/".toList) value
      || startsWithStr ("\\".toList) value then false
  else
    decide (("..".toList) ∉ splitOnChar '/' (normalizeSlashes value))

/-- The final path component of `rel` (separators `/` and `\`), as
`pathlib` computes `Path(rel).name`. -/
def pathFinalName (p : Str) : Str :=
  p.foldl (fun acc c => if c = '/' || c = '\\' then [] else acc ++ [c]) []

/-- `Path(rel).suffix`: the extension of the final component from its last
dot; empty when the dot is absent, leading or trailing. -/
def pathSuffix (p : Str) : Str :=
  let name := pathFinalName p
  match (name.reverse).findIdx? (fun c => c == '.') with
  | none => []
  | some r =>
    let i := name.length - 1 - r
    if 0 < i ∧ i < name.length - 1 then name.drop i else []

/-- `extract_manifest_entries` (server.py lines 199-213), applied to the
raw `files` list: string items become `(item, "")`; dict items contribute
`(path-or-file stripped, sha256 stripped lowercased)` when the path is
non-empty. -/
def parseEntries : List JVal → List (Str × Str)
  | [] => []
  | item :: rest =>
    match item with
    | .jstr s => (s, []) :: parseEntries rest
    | .jobj fields =>
      let rel := stripWs (pyStr (pyOr (pyGet fields ("path".toList))
        (pyOr (pyGet fields ("file".toList)) (.jstr []))))
      let sha := lowerStr (stripWs (pyStr (pyOr (pyGet fields ("sha256".toList)) (.jstr []))))
      if rel = [] then parseEntries rest else (rel, sha) :: parseEntries rest
    | _ => parseEntries rest

/-- `extract_manifest_entries` on a parsed manifest object. -/
def extractManifestEntries (manifestData : List (Str × JVal)) : List (Str × Str) :=
  match (jget manifestData ("files".toList)).getD (.jarr []) with
  | .jarr items => parseEntries items
  | _ => []

/-- `FileProbeResult` (server.py lines 216-221). -/
structure FileProbeResult where
  installed : Bool
  missing : List Str
  lastError : Str
deriving DecidableEq, Repr

/-- The filesystem visible to the probe: whether `bundleDir / rel` exists
and, when it does, the digest `hash_file_sha256` computes for it (`none`
models a read failure; the code lowercases the hex digest, so oracle
digests are taken verbatim). -/
structure FsOracle where
  existsFile : Str → Bool
  hashFile : Str → Option Str

/-- The entry loop of `verify_manifest_bundle` (server.py lines 260-305),
with accumulators for the `missing` list and for the log of paths passed
to `hash_file_sha256` (the second component of the result). -/
def verifyEntriesGo (fs : FsOracle) (allowed : List Str) (unsafeAllowed : Bool)
    (bundleName : Str) :
    List (Str × Str) → List Str → List Str → FileProbeResult × List Str
  | [], missing, hashed => (⟨missing.isEmpty, missing, []⟩, hashed)
  | (rel, sha) :: rest, missing, hashed =>
    if !(isPathSafeRelative rel) then
      (⟨false, [], ("manifest_path_invalid:".toList) ++ rel⟩, hashed)
    else
      let ext := lowerStr (pathSuffix rel)
      if decide (ext ∈ blockedArtifactExtensions) && !unsafeAllowed then
        (⟨false, [], ("artifact_blocked:".toList) ++ rel⟩, hashed)
      else if !(ext.isEmpty) && decide (ext ∉ allowed.map lowerStr) then
        (⟨false, [], ("artifact_extension_not_allowed:".toList) ++ rel⟩, hashed)
      else if !(fs.existsFile rel) then
        verifyEntriesGo fs allowed unsafeAllowed bundleName rest
          (missing ++ [normalizeSlashes (bundleName ++ ('/' :: rel))]) hashed
      else if !(sha.isEmpty) then
        match fs.hashFile rel with
        | none =>
          (⟨false, [], ("hash_read_failed:".toList) ++ rel⟩, hashed ++ [rel])
        | some actual =>
          if !(actual == sha) then
            (⟨false, [], ("hash_mismatch:".toList) ++ rel⟩, hashed ++ [rel])
          else
            verifyEntriesGo fs allowed unsafeAllowed bundleName rest missing
              (hashed ++ [rel])
      else
        verifyEntriesGo fs allowed unsafeAllowed bundleName rest missing hashed

/-- `verify_manifest_bundle` from a parsed manifest object onward (the
manifest-missing and manifest-parse-error branches concern reading the
file itself and are prior to everything the claim is about). -/
def verifyManifestBundle (fs : FsOracle) (allowed : List Str)
    (unsafeAllowed : Bool) (manifestData : List (Str × JVal))
    (bundleName : Str) : FileProbeResult × List Str :=
  let entries := extractManifestEntries manifestData
  if entries.isEmpty then
    (⟨false, [bundleName ++ ("/manifest.json:files".toList)], ("manifest_files_missing".toList)⟩, [])
  else
    verifyEntriesGo fs allowed unsafeAllowed bundleName entries [] []

/-- An entry the verifier must reject: unsafe path, or blocked extension
without the unsafe-artifacts toggle. -/
def entryRejected (unsafeAllowed : Bool) (rel : Str) : Bool :=
  !(isPathSafeRelative rel)
  || (decide (lowerStr (pathSuffix rel) ∈ blockedArtifactExtensions) && !unsafeAllowed)

theorem verifyEntriesGo_rejects (fs : FsOracle) (allowed : List Str)
    (toggle : Bool) (bundleName : Str) :
    ∀ (entries : List (Str × Str)) (missing hashed : List Str) (rel sha : Str),
      (rel, sha) ∈ entries → entryRejected toggle rel = true →
      (verifyEntriesGo fs allowed toggle bundleName entries missing hashed).1.installed
        = false := by
  intro entries
  induction entries with
  | nil =>
    intro missing hashed rel sha hmem
    cases hmem
  | cons e rest ih =>
    intro missing hashed rel sha hmem hbad
    obtain ⟨r, s⟩ := e
    rcases List.mem_cons.mp hmem with he | hrest
    · rw [Prod.mk.injEq] at he
      obtain ⟨rfl, rfl⟩ := he
      simp only [entryRejected, Bool.or_eq_true, Bool.and_eq_true,
        Bool.not_eq_true', decide_eq_true_eq] at hbad
      rcases hbad with h | ⟨h1, h2⟩
      · simp [verifyEntriesGo, h]
      · cases hs2 : isPathSafeRelative rel
        · simp [verifyEntriesGo, hs2]
        · simp [verifyEntriesGo, hs2, h1, h2]
    · simp only [verifyEntriesGo]
      split
      · rfl
      split
      · rfl
      split
      · rfl
      split
      · exact ih _ _ rel sha hrest hbad
      split
      · split
        · rfl
        · split
          · rfl
          · exact ih _ _ rel sha hrest hbad
      · exact ih _ _ rel sha hrest hbad

theorem entryRejected_false_of_passed {toggle : Bool} {r : Str}
    (hsafe : (!isPathSafeRelative r) = false)
    (hblocked : (decide (lowerStr (pathSuffix r) ∈ blockedArtifactExtensions)
      && !toggle) = false) :
    entryRejected toggle r = false := by
  simp only [entryRejected, hsafe, hblocked, Bool.or_self]

theorem verifyEntriesGo_hashed (fs : FsOracle) (allowed : List Str)
    (toggle : Bool) (bundleName : Str) :
    ∀ (entries : List (Str × Str)) (missing hashed : List Str) (x : Str),
      x ∈ (verifyEntriesGo fs allowed toggle bundleName entries missing hashed).2 →
      x ∈ hashed ∨ ∃ s, (x, s) ∈ entries ∧ entryRejected toggle x = false := by
  intro entries
  induction entries with
  | nil =>
    intro missing hashed x hx
    exact Or.inl hx
  | cons e rest ih =>
    intro missing hashed x hx
    obtain ⟨r, s⟩ := e
    simp only [verifyEntriesGo] at hx
    by_cases hsafe : (!isPathSafeRelative r) = true
    · rw [if_pos hsafe] at hx
      exact Or.inl hx
    · rw [if_neg hsafe] at hx
      by_cases hblk : (decide (lowerStr (pathSuffix r) ∈ blockedArtifactExtensions)
          && !toggle) = true
      · rw [if_pos hblk] at hx
        exact Or.inl hx
      · rw [if_neg hblk] at hx
        have hrej : entryRejected toggle r = false :=
          entryRejected_false_of_passed (by simpa using hsafe) (by simpa using hblk)
        by_cases hext : (!(lowerStr (pathSuffix r)).isEmpty
            && decide (lowerStr (pathSuffix r) ∉ allowed.map lowerStr)) = true
        · rw [if_pos hext] at hx
          exact Or.inl hx
        · rw [if_neg hext] at hx
          by_cases hex : (!fs.existsFile r) = true
          · rw [if_pos hex] at hx
            rcases ih _ _ x hx with h | ⟨s2, hmem2, hrej2⟩
            · exact Or.inl h
            · exact Or.inr ⟨s2, List.mem_cons_of_mem _ hmem2, hrej2⟩
          · rw [if_neg hex] at hx
            by_cases hsha : (!s.isEmpty) = true
            · rw [if_pos hsha] at hx
              cases hhash : fs.hashFile r with
              | none =>
                simp only [hhash] at hx
                rcases List.mem_append.mp hx with h | h
                · exact Or.inl h
                · rw [List.mem_singleton] at h
                  subst h
                  exact Or.inr ⟨s, List.mem_cons_self _ _, hrej⟩
              | some actual =>
                simp only [hhash] at hx
                by_cases hmm : (!(actual == s)) = true
                · rw [if_pos hmm] at hx
                  rcases List.mem_append.mp hx with h | h
                  · exact Or.inl h
                  · rw [List.mem_singleton] at h
                    subst h
                    exact Or.inr ⟨s, List.mem_cons_self _ _, hrej⟩
                · rw [if_neg hmm] at hx
                  rcases ih _ _ x hx with h | ⟨s2, hmem2, hrej2⟩
                  · rcases List.mem_append.mp h with h | h
                    · exact Or.inl h
                    · rw [List.mem_singleton] at h
                      subst h
                      exact Or.inr ⟨s, List.mem_cons_self _ _, hrej⟩
                  · exact Or.inr ⟨s2, List.mem_cons_of_mem _ hmem2, hrej2⟩
            · rw [if_neg hsha] at hx
              rcases ih _ _ x hx with h | ⟨s2, hmem2, hrej2⟩
              · exact Or.inl h
              · exact Or.inr ⟨s2, List.mem_cons_of_mem _ hmem2, hrej2⟩

theorem verifyEntriesGo_installed_missing (fs : FsOracle) (allowed : List Str)
    (toggle : Bool) (bundleName : Str) :
    ∀ (entries : List (Str × Str)) (missing hashed : List Str),
      (verifyEntriesGo fs allowed toggle bundleName entries missing hashed).1.installed
        = true → missing = [] := by
  intro entries
  induction entries with
  | nil =>
    intro missing hashed h
    simpa [verifyEntriesGo, List.isEmpty_iff] using h
  | cons e rest ih =>
    intro missing hashed h
    obtain ⟨r, s⟩ := e
    simp only [verifyEntriesGo] at h
    by_cases hsafe : (!isPathSafeRelative r) = true
    · rw [if_pos hsafe] at h
      cases h
    · rw [if_neg hsafe] at h
      by_cases hblk : (decide (lowerStr (pathSuffix r) ∈ blockedArtifactExtensions)
          && !toggle) = true
      · rw [if_pos hblk] at h
        cases h
      · rw [if_neg hblk] at h
        by_cases hext : (!(lowerStr (pathSuffix r)).isEmpty
            && decide (lowerStr (pathSuffix r) ∉ allowed.map lowerStr)) = true
        · rw [if_pos hext] at h
          cases h
        · rw [if_neg hext] at h
          by_cases hex : (!fs.existsFile r) = true
          · rw [if_pos hex] at h
            have h2 := ih _ _ h
            simp at h2
          · rw [if_neg hex] at h
            by_cases hsha : (!s.isEmpty) = true
            · rw [if_pos hsha] at h
              cases hhash : fs.hashFile r with
              | none =>
                simp only [hhash] at h
                cases h
              | some actual =>
                simp only [hhash] at h
                by_cases hmm : (!(actual == s)) = true
                · rw [if_pos hmm] at h
                  cases h
                · rw [if_neg hmm] at h
                  exact ih _ _ h
            · rw [if_neg hsha] at h
              exact ih _ _ h

theorem verifyEntriesGo_installed_hashes (fs : FsOracle) (allowed : List Str)
    (toggle : Bool) (bundleName : Str) :
    ∀ (entries : List (Str × Str)) (missing hashed : List Str) (rel sha : Str),
      (verifyEntriesGo fs allowed toggle bundleName entries missing hashed).1.installed
        = true →
      (rel, sha) ∈ entries → sha ≠ [] →
      fs.existsFile rel = true ∧ fs.hashFile rel = some sha := by
  intro entries
  induction entries with
  | nil =>
    intro missing hashed rel sha _ hmem
    cases hmem
  | cons e rest ih =>
    intro missing hashed rel sha h hmem hsha0
    obtain ⟨r, s⟩ := e
    simp only [verifyEntriesGo] at h
    by_cases hsafe : (!isPathSafeRelative r) = true
    · rw [if_pos hsafe] at h
      cases h
    · rw [if_neg hsafe] at h
      by_cases hblk : (decide (lowerStr (pathSuffix r) ∈ blockedArtifactExtensions)
          && !toggle) = true
      · rw [if_pos hblk] at h
        cases h
      · rw [if_neg hblk] at h
        by_cases hext : (!(lowerStr (pathSuffix r)).isEmpty
            && decide (lowerStr (pathSuffix r) ∉ allowed.map lowerStr)) = true
        · rw [if_pos hext] at h
          cases h
        · rw [if_neg hext] at h
          by_cases hex : (!fs.existsFile r) = true
          · rw [if_pos hex] at h
            have h2 := verifyEntriesGo_installed_missing _ _ _ _ _ _ _ h
            simp at h2
          · rw [if_neg hex] at h
            by_cases hsha : (!s.isEmpty) = true
            · rw [if_pos hsha] at h
              cases hhash : fs.hashFile r with
              | none =>
                simp only [hhash] at h
                cases h
              | some actual =>
                simp only [hhash] at h
                by_cases hmm : (!(actual == s)) = true
                · rw [if_pos hmm] at h
                  cases h
                · rw [if_neg hmm] at h
                  rcases List.mem_cons.mp hmem with he | hrest
                  · rw [Prod.mk.injEq] at he
                    obtain ⟨rfl, rfl⟩ := he
                    refine ⟨by simpa using hex, ?_⟩
                    rw [hhash]
                    have : actual = sha := by
                      have h3 : (actual == sha) = true := by
                        simpa using hmm
                      exact eq_of_beq h3
                    rw [this]
                  · exact ih _ _ rel sha h hrest hsha0
            · rw [if_neg hsha] at h
              rcases List.mem_cons.mp hmem with he | hrest
              · rw [Prod.mk.injEq] at he
                obtain ⟨rfl, rfl⟩ := he
                exfalso
                apply hsha0
                have : sha.isEmpty = true := by simpa using hsha
                simpa [List.isEmpty_iff] using this
              · exact ih _ _ rel sha h hrest hsha0

theorem isPathSafeRelative_false_of_cond {rel : Str}
    (h : (rel.isEmpty || startsWithStr ("/".toList) rel
            || startsWithStr ("\\".toList) rel) = true ∨
         ("..".toList) ∈ splitOnChar '/' (normalizeSlashes rel)) :
    isPathSafeRelative rel = false := by
  unfold isPathSafeRelative
  split
  · rfl
  · rename_i hcon
    rcases h with h | h
    · exact absurd h hcon
    · simpa using h

theorem entryRejected_of_claim {toggle : Bool} {rel : Str}
    (h : startsWithStr ("/".toList) rel = true ∨
         startsWithStr ("\\".toList) rel = true ∨
         ("..".toList) ∈ splitOnChar '/' (normalizeSlashes rel) ∨
         (lowerStr (pathSuffix rel) ∈ blockedArtifactExtensions ∧ toggle = false)) :
    entryRejected toggle rel = true := by
  rcases h with h | h | h | ⟨h1, h2⟩
  · have h2 := @isPathSafeRelative_false_of_cond rel (Or.inl (by rw [h]; simp))
    simp [entryRejected, h2]
  · have h2 := @isPathSafeRelative_false_of_cond rel (Or.inl (by rw [h]; simp))
    simp [entryRejected, h2]
  · have h2 := @isPathSafeRelative_false_of_cond rel (Or.inr h)
    simp [entryRejected, h2]
  · subst h2
    simp [entryRejected, h1]

/-- C9: with the unsafe-artifacts toggle not truthy, manifest verification
reports `installed = false` for every manifest containing an entry whose
path is absolute (starts with `/` or `\`), contains a `..` segment, or has
suffix `.pt` / `.pth`; such an entry's file is never passed to the hasher;
and when verification reports `installed = true`, every entry carrying an
expected digest names an existing file whose computed SHA-256 equals that
(lowercased) digest. -/
theorem c9_manifest_verification (fs : FsOracle) (allowed : List Str)
    (envValue : Str) (manifest : List (Str × JVal)) (bundleName : Str) :
    (∀ rel sha, (rel, sha) ∈ extractManifestEntries manifest →
       (startsWithStr ("/".toList) rel = true ∨
        startsWithStr ("\\".toList) rel = true ∨
        ("..".toList) ∈ splitOnChar '/' (normalizeSlashes rel) ∨
        (lowerStr (pathSuffix rel) ∈ blockedArtifactExtensions ∧
          unsafeArtifactsAllowed envValue = false)) →
       (verifyManifestBundle fs allowed (unsafeArtifactsAllowed envValue)
          manifest bundleName).1.installed = false ∧
       rel ∉ (verifyManifestBundle fs allowed (unsafeArtifactsAllowed envValue)
          manifest bundleName).2) ∧
    ((verifyManifestBundle fs allowed (unsafeArtifactsAllowed envValue)
        manifest bundleName).1.installed = true →
      ∀ rel sha, (rel, sha) ∈ extractManifestEntries manifest → sha ≠ [] →
        fs.existsFile rel = true ∧ fs.hashFile rel = some sha) := by
  constructor
  · intro rel sha hmem hcond
    have hrej := entryRejected_of_claim hcond
    have hne : ¬(extractManifestEntries manifest).isEmpty = true := by
      cases hepty : extractManifestEntries manifest with
      | nil =>
        rw [hepty] at hmem
        cases hmem
      | cons a l => simp [hepty]
    constructor
    · simp only [verifyManifestBundle]
      rw [if_neg hne]
      exact verifyEntriesGo_rejects _ _ _ _ _ _ _ rel sha hmem hrej
    · simp only [verifyManifestBundle]
      rw [if_neg hne]
      intro hx
      rcases verifyEntriesGo_hashed _ _ _ _ _ _ _ rel hx with h | ⟨s2, hmem2, hrej2⟩
      · cases h
      · rw [hrej] at hrej2
        cases hrej2
  · intro hinst rel sha hmem hsha
    simp only [verifyManifestBundle] at hinst
    by_cases hne : (extractManifestEntries manifest).isEmpty = true
    · rw [if_pos hne] at hinst
      cases hinst
    · rw [if_neg hne] at hinst
      exact verifyEntriesGo_installed_hashes _ _ _ _ _ _ _ rel sha hinst hmem hsha

/-- A trivial filesystem oracle for the C9 witness. -/
def c9FsEx : FsOracle := ⟨fun _ => true, fun _ => some []⟩

/-- A manifest whose single entry is a blocked `.pt` artifact. -/
def c9ManifestEx : List (Str × JVal) :=
  [(("files".toList), .jarr [.jstr ("model.pt".toList)])]

/-- Witness for `c9_manifest_verification`. -/
theorem c9_manifest_verification_witness :
    (verifyManifestBundle c9FsEx [] (unsafeArtifactsAllowed []) c9ManifestEx
      ("stt".toList)).1.installed = false ∧
    ("model.pt".toList) ∉ (verifyManifestBundle c9FsEx []
      (unsafeArtifactsAllowed []) c9ManifestEx ("stt".toList)).2 :=
  (c9_manifest_verification c9FsEx [] [] c9ManifestEx ("stt".toList)).1
    ("model.pt".toList) [] (by decide) (by decide)

/-! ## Hooks payloads (claims C1 and C10) -/

/-- One supporting moment of a normalized hook. -/
structure Moment where
  quote : Str
  startSec : Option ℤ
  endSec : Option ℤ
deriving DecidableEq, Repr

/-- One normalized hook. -/
structure Hook where
  rank : ℕ
  hook : Str
  who : Str
  outcome : Str
  proof : Str
  supporting_moments : List Moment
deriving DecidableEq, Repr

/-- The hooks payload persisted to `hooks.json`. -/
structure HooksPayload where
  hasTimestamps : Bool
  generatedAtUtc : Str
  draftTone : Str
  hooks : List Hook
deriving DecidableEq, Repr

/-- Python decimal rendering of a natural number. -/
def natToStr (n : ℕ) : Str := (toString n).toList

/-- Python `a or b` on (already stripped) strings. -/
def pyOrStr (a b : Str) : Str := if a = [] then b else a

/-- `str(item.get(key) or "").strip()` on a parsed JSON object. -/
def getStrField (item : List (Str × JVal)) (key : Str) : Str :=
  stripWs (pyStr (pyOr (pyGet item key) (.jstr [])))

/-- The first pass over `supporting_moments` (youtube_pipeline.py lines
1463-1474): keep up to three non-empty quotes, with null timestamps. -/
def collectSupporting : List JVal → List Moment → List Moment
  | [], acc => acc
  | m :: rest, acc =>
    if acc.length ≥ 3 then acc
    else
      let quote :=
        match m with
        | .jobj fields => stripWs (pyStr (pyOr (pyGet fields ("quote".toList)) (.jstr [])))
        | .jstr s => stripWs s
        | _ => []
      if quote = [] then collectSupporting rest acc
      else collectSupporting rest (acc ++ [⟨quote, none, none⟩])

/-- The back-fill loop (lines 1477-1491): ensure at least two quote cues,
drawing from proof, outcome, hook and then a fixed literal, skipping
case-insensitive duplicates. -/
def backfillSupporting : List Str → List Moment → List Moment
  | [], supporting => supporting
  | cand :: rest, supporting =>
    if supporting.length ≥ 2 then supporting
    else
      let quote := stripWs cand
      if quote = [] then backfillSupporting rest supporting
      else if supporting.any
          (fun entry => lowerStr (stripWs entry.quote) == lowerStr quote) then
        backfillSupporting rest supporting
      else backfillSupporting rest (supporting ++ [⟨quote, none, none⟩])

/-- One pass of the normalization loop of `_normalize_hooks_payload`
(lines 1446-1503): keep up to the first three dict entries that carry at
least one of hook/outcome/proof, with defaulted fields and back-filled
supporting moments. -/
def normalizeHooksLoop : List JVal → ℕ → List Hook → List Hook
  | [], _, normalized => normalized
  | item :: rest, index, normalized =>
    if normalized.length ≥ 3 then normalized
    else
      match item with
      | .jobj fields =>
        let hook := getStrField fields ("hook".toList)
        let who := getStrField fields ("who".toList)
        let outcome := getStrField fields ("outcome".toList)
        let proof := getStrField fields ("proof".toList)
        if hook = [] ∧ outcome = [] ∧ proof = [] then
          normalizeHooksLoop rest (index + 1) normalized
        else
          let supportingRaw : JVal :=
            match pyGet fields ("supporting_moments".toList) with
            | .jnull => pyGet fields ("supportingMoments".toList)
            | v => v
          let supporting0 :=
            match supportingRaw with
            | .jarr moments => collectSupporting moments []
            | _ => []
          let fallbackQuotes :=
            [proof, outcome, hook, ("No supporting quote provided.".toList)]
          let supporting := (backfillSupporting fallbackQuotes supporting0).take 3
          let newHook : Hook :=
            { rank := index
              hook := pyOrStr hook (("Value hook ".toList) ++ natToStr index)
              who := pyOrStr who ("target audience".toList)
              outcome := pyOrStr outcome (pyOrStr proof (pyOrStr hook
                ("Actionable takeaway identified.".toList)))
              proof := pyOrStr proof (pyOrStr outcome (pyOrStr hook
                ("No proof snippet returned.".toList)))
              supporting_moments := supporting }
          normalizeHooksLoop rest (index + 1) (normalized ++ [newHook])
      | _ => normalizeHooksLoop rest (index + 1) normalized

/-- The fallback hook appended while fewer than three hooks exist
(lines 1505-1516). -/
def padFallbackHook (fallbackIndex : ℕ) : Hook :=
  { rank := fallbackIndex
    hook := ("Value hook ".toList) ++ natToStr fallbackIndex
    who := ("target audience".toList)
    outcome := ("Actionable takeaway identified.".toList)
    proof := ("Generated fallback hook.".toList)
    supporting_moments := [⟨("Generated fallback hook.".toList), none, none⟩] }

/-- The `while len(normalized) < 3` padding loop; the fuel (3 at the call
site) bounds it. -/
def padHooksLoop : ℕ → List Hook → List Hook
  | 0, hooks => hooks
  | fuel + 1, hooks =>
    if hooks.length < 3 then
      padHooksLoop fuel (hooks ++ [padFallbackHook (hooks.length + 1)])
    else hooks

/-- The re-ranking pass (lines 1518-1519): `enumerate(normalized, start=1)`
overwrites each rank. -/
def rerankHooks : ℕ → List Hook → List Hook
  | _, [] => []
  | idx, h :: rest => { h with rank := idx } :: rerankHooks (idx + 1) rest

/-- `_normalize_hooks_payload` (lines 1441-1521): `Except.error` models the
`ValueError` raised when the payload has no hooks array.  The result pairs
`hasTimestamps = false` with the normalized hooks. -/
def normalizeHooksPayload (payload : List (Str × JVal)) :
    Except Str (Bool × List Hook) :=
  match pyGet payload ("hooks".toList) with
  | .jarr hooksRaw =>
    let normalized := normalizeHooksLoop hooksRaw 1 []
    let padded := padHooksLoop 3 normalized
    .ok (false, (rerankHooks 1 padded).take 3)
  | _ => .error ("hooks payload did not contain a hooks array".toList)

/-- `_build_fallback_hooks` (lines 1384-1411). -/
def buildFallbackHooks (title : Str) : List Hook :=
  let t := stripWs (pyOrStr title ("this video".toList))
  [{ rank := 1
     hook := ("Main theme overview".toList)
     who := ("general audience".toList)
     outcome := ("Understand the central idea from ".toList) ++ t ++ [('.' : Char)]
     proof := ("Transcript contained limited usable speech content.".toList)
     supporting_moments :=
       [⟨("No usable speech transcript was produced.".toList), none, none⟩] },
   { rank := 2
     hook := ("Practical framing".toList)
     who := ("practitioners".toList)
     outcome := ("Collect actionable framing points for future content.".toList)
     proof := ("Fallback hook generated due to sparse transcript.".toList)
     supporting_moments :=
       [⟨("Fallback hook generated due to sparse transcript.".toList), none, none⟩] },
   { rank := 3
     hook := ("Communication angle".toList)
     who := ("content teams".toList)
     outcome := ("Position the topic in concise, audience-facing language.".toList)
     proof := ("Fallback hook generated due to sparse transcript.".toList)
     supporting_moments :=
       [⟨("Fallback hook generated due to sparse transcript.".toList), none, none⟩] }]

theorem length_dropWhile_le (p : Char → Bool) :
    ∀ l : Str, (l.dropWhile p).length ≤ l.length := by
  intro l
  induction l with
  | nil => simp
  | cons c cs ih =>
    rw [List.dropWhile_cons]
    split
    · exact Nat.le_succ_of_le ih
    · exact Nat.le_refl _

/-- Worker of the sentence splitter `re.split(r"(?<=[.!?])\s+", text)`:
split at every maximal whitespace run whose preceding character is `.`,
`!` or `?`. -/
def sentenceSplitGo : Str → Option Char → Str → List Str
  | cur, _, [] => [cur]
  | cur, prev, c :: cs =>
    if pySpace c && (prev == some '.' || prev == some '!' || prev == some '?') then
      cur :: sentenceSplitGo [] none (cs.dropWhile pySpace)
    else
      sentenceSplitGo (cur ++ [c]) (some c) cs
termination_by _ _ s => s.length
decreasing_by
  · exact Nat.lt_succ_of_le (length_dropWhile_le _ _)
  · exact Nat.lt_succ_of_le (Nat.le_refl _)

/-- `re.split(r"(?<=[.!?])\s+", text)`. -/
def sentenceSplit (text : Str) : List Str := sentenceSplitGo [] none text

/-- The candidate sentences of `_build_transcript_derived_hooks` (lines
1626-1630): stripped chunks of at least 45 characters. -/
def derivedSentences (transcript : Str) : List Str :=
  ((sentenceSplit transcript).map stripWs).filter (fun s => 45 ≤ s.length)

/-- The fixed keyword list of `_build_transcript_derived_hooks`. -/
def derivedKeywords : List Str :=
  [("manufacturing".toList), ("assembly".toList), ("process".toList),
   ("bom".toList), ("3d experience".toList), ("design".toList),
   ("shop floor".toList), ("workflow".toList)]

/-- The keyword-ranking pass (lines 1644-1650): select sentences containing
a keyword, up to six. -/
def selectKeywordPass : List Str → List Str → List Str
  | [], selected => selected
  | sentence :: rest, selected =>
    let selected2 :=
      if derivedKeywords.any (fun k => containsSub k (lowerStr sentence)) then
        selected ++ [sentence]
      else selected
    if selected2.length ≥ 6 then selected2
    else selectKeywordPass rest selected2

/-- The fill pass (lines 1651-1657): top up to six with the remaining
sentences. -/
def selectFillPass : List Str → List Str → List Str
  | [], selected => selected
  | sentence :: rest, selected =>
    if decide (sentence ∈ selected) then selectFillPass rest selected
    else
      let selected2 := selected ++ [sentence]
      if selected2.length ≥ 6 then selected2
      else selectFillPass rest selected2

/-- The sentence-selection of `_build_transcript_derived_hooks`. -/
def selectSentences (sentences : List Str) : List Str :=
  let selected := selectKeywordPass sentences []
  if selected.length < 6 then selectFillPass sentences selected else selected

/-- The three fixed derivation templates (lines 1662-1678):
(hook, who, outcome). -/
def derivedTemplates : List (Str × Str × Str) :=
  [(("Design intent must connect to production intent.".toList),
    ("design and manufacturing teams".toList),
    ("Align CAD decisions with manufacturing flow earlier in the lifecycle.".toList)),
   (("eBOM and mBOM serve different truths and should be modeled accordingly.".toList),
    ("PLM owners and manufacturing engineers".toList),
    ("Build mBOM around real execution sequence, not only CAD hierarchy.".toList)),
   (("Process planning is the bridge from digital model to repeatable output.".toList),
    ("operations and process planners".toList),
    ("Define operations and resources explicitly to reduce downstream ambiguity.".toList))]

/-- `_build_transcript_derived_hooks` (lines 1621-1697). -/
def buildTranscriptDerivedHooks (transcriptText : Str) : List Hook :=
  let transcript := stripWs transcriptText
  if transcript = [] then []
  else
    let sentences := derivedSentences transcript
    if sentences = [] then []
    else
      let selected := selectSentences sentences
      if selected.length < 3 then []
      else
        (List.range 3).map (fun idx =>
          let quoteA := if idx * 2 < selected.length then selected.getD (idx * 2) []
            else selected.getD idx []
          let quoteB := if idx * 2 + 1 < selected.length then selected.getD (idx * 2 + 1) []
            else selected.getD idx []
          let t := derivedTemplates.getD idx ([], [], [])
          { rank := idx + 1
            hook := t.1
            who := t.2.1
            outcome := t.2.2
            proof := quoteA
            supporting_moments := [⟨quoteA, none, none⟩, ⟨quoteB, none, none⟩] })

/-- The per-hook placeholder test of `_hooks_are_placeholder` (lines
1614-1618). -/
def hookIsPlaceholder (h : Hook) : Bool :=
  startsWithStr ("value hook ".toList) (lowerStr (stripWs h.hook))
  || lowerStr (stripWs h.proof) == ("generated fallback hook.".toList)
  || lowerStr (stripWs h.outcome) == ("actionable takeaway identified.".toList)

/-- `_hooks_are_placeholder` (lines 1604-1619), on a normalized hooks
list: placeholder iff fewer than three hooks or at least two of the first
three look like fallback output. -/
def hooksArePlaceholder (hooks : List Hook) : Bool :=
  if hooks.length < 3 then true
  else decide (2 ≤ ((hooks.take 3).filter hookIsPlaceholder).length)

/-- The lazy search for the closing triple backtick of a fence: the content
up to the first occurrence. -/
def findFenceClose : Str → Option Str
  | [] => none
  | c :: cs =>
    if startsWithStr ("```".toList) (c :: cs) then some []
    else (findFenceClose cs).map (fun r => c :: r)

/-- The part of a fence match after the opening backticks: optionally skip
a (case-insensitive) `json` tag and whitespace, then capture lazily up to
the closing backticks. -/
def fenceContentFrom (s : Str) : Option Str :=
  let afterTag := if startsWithStr ("json".toList) (lowerStr (s.take 4)) then s.drop 4 else s
  findFenceClose (afterTag.dropWhile pySpace)

/-- The scan of `re.search` for the fence pattern
```` ```(?:json)?\s*(.*?)``` ````: try every position left to right. -/
def fenceScan : Str → Option Str
  | [] => none
  | c :: cs =>
    if startsWithStr ("```".toList) (c :: cs) then
      match fenceContentFrom ((c :: cs).drop 3) with
      | some content => some content
      | none => fenceScan cs
    else fenceScan cs

/-- The brace-slice candidate of `_try_parse_json_object` (lines
1427-1430): from the first `{` to the last `}`. -/
def braceSlice (raw : Str) : Option Str :=
  match raw.findIdx? (fun c => c == '\x7b') with
  | none => none
  | some first =>
    match raw.reverse.findIdx? (fun c => c == '\x7d') with
    | none => none
    | some rIdx =>
      let last := raw.length - 1 - rIdx
      if first < last then some (stripWs ((raw.drop first).take (last + 1 - first)))
      else none

/-- Try `json.loads` (the oracle) on each candidate and return the first
dict result. -/
def firstObjCandidate (jsonLoads : Str → Option JVal) :
    List Str → Option (List (Str × JVal))
  | [] => none
  | c :: cs =>
    match jsonLoads c with
    | some (.jobj fields) => some fields
    | _ => firstObjCandidate jsonLoads cs

/-- `_try_parse_json_object` (lines 1413-1439): candidates are the whole
trimmed text, the first fenced block (when non-empty), and the outermost
brace slice; the first candidate that parses to a JSON object wins.
`json.loads` (the Python standard library) is supplied as an oracle that
returns `none` on a parse failure. -/
def tryParseJsonObject (jsonLoads : Str → Option JVal) (rawText : Str) :
    Option (List (Str × JVal)) :=
  let raw := stripWs rawText
  if raw = [] then none
  else
    let candidates := [raw]
    let candidates :=
      match fenceScan raw with
      | some fenced =>
        let f := stripWs fenced
        if f = [] then candidates else candidates ++ [f]
      | none => candidates
    let candidates :=
      match braceSlice raw with
      | some b => candidates ++ [b]
      | none => candidates
    firstObjCandidate jsonLoads candidates

/-- The outcome of one `_call_llm` invocation, supplied by an oracle: the
job was cancelled at or inside the call, the call raised
`LLM_REQUEST_FAILED`, or it returned content. -/
inductive LlmOutcome
  | cancelled
  | failed
  | ok (content : Str)

/-- The two ways `_extract_hooks` can raise. -/
inductive HooksError
  | jobCancelled
  | extractionFailed
deriving DecidableEq, Repr

/-- `_extract_hooks` (lines 648-764), with the generation engine and
`json.loads` supplied as oracles (`llm1` is the first call, `llm2` the
repair call; the prompts, which include the smart excerpt, do not affect
the control flow).  Returns the number of generation calls made together
with the payload or the typed failure: an `LLM_REQUEST_FAILED` from a call
is re-raised as `HOOKS_EXTRACTION_FAILED`, and the `ValueError` of
`_normalize_hooks_payload` is caught by the generic handler and also
becomes `HOOKS_EXTRACTION_FAILED`. -/
def extractHooks (jsonLoads : Str → Option JVal) (llm1 llm2 : LlmOutcome)
    (cancelledAtEntry : Bool) (title transcriptText draftTone nowUtc : Str) :
    ℕ × Except HooksError HooksPayload :=
  if cancelledAtEntry then (0, .error .jobCancelled)
  else
    let transcript := stripWs transcriptText
    if transcript = [] then
      (0, .ok { hasTimestamps := false, generatedAtUtc := nowUtc,
                draftTone := draftTone, hooks := buildFallbackHooks title })
    else
      match llm1 with
      | .cancelled => (1, .error .jobCancelled)
      | .failed => (1, .error .extractionFailed)
      | .ok firstRaw =>
        let afterParse : ℕ × Except HooksError (List (Str × JVal)) :=
          match tryParseJsonObject jsonLoads firstRaw with
          | some parsed => (1, .ok parsed)
          | none =>
            match llm2 with
            | .cancelled => (2, .error .jobCancelled)
            | .failed => (2, .error .extractionFailed)
            | .ok repairedRaw =>
              match tryParseJsonObject jsonLoads repairedRaw with
              | some parsed => (2, .ok parsed)
              | none => (2, .error .extractionFailed)
        match afterParse with
        | (n, .error e) => (n, .error e)
        | (n, .ok parsed) =>
          match normalizeHooksPayload parsed with
          | .error _ => (n, .error .extractionFailed)
          | .ok (_, normalizedHooks) =>
            let hooks2 :=
              if hooksArePlaceholder normalizedHooks then
                let derived := buildTranscriptDerivedHooks transcript
                if derived.isEmpty then normalizedHooks else derived
              else normalizedHooks
            (n, .ok { hasTimestamps := false, generatedAtUtc := nowUtc,
                      draftTone := draftTone, hooks := hooks2 })

/-- A supporting moment is well formed: non-empty quote, null timestamps. -/
def MomentOk (m : Moment) : Prop :=
  m.quote ≠ [] ∧ m.startSec = none ∧ m.endSec = none

/-- A hook carries between one and three well-formed supporting moments. -/
def HookOk (h : Hook) : Prop :=
  1 ≤ h.supporting_moments.length ∧ h.supporting_moments.length ≤ 3 ∧
  ∀ m ∈ h.supporting_moments, MomentOk m

/-- The payload invariant every persisted hooks.json satisfies (claim C1,
amended): `hasTimestamps = false`, exactly three hooks ranked 1, 2, 3 in
order, and each hook's supporting moments well formed, between one and
three of them. -/
def PayloadInv (p : HooksPayload) : Prop :=
  p.hasTimestamps = false ∧
  p.hooks.length = 3 ∧
  p.hooks.map Hook.rank = [1, 2, 3] ∧
  ∀ h ∈ p.hooks, HookOk h

theorem collectSupporting_ok :
    ∀ (ms : List JVal) (acc : List Moment),
      (∀ m ∈ acc, MomentOk m) →
      ∀ m ∈ collectSupporting ms acc, MomentOk m := by
  intro ms
  induction ms with
  | nil =>
    intro acc hacc m hm
    exact hacc m hm
  | cons x rest ih =>
    intro acc hacc m hm
    simp only [collectSupporting] at hm
    split at hm
    · exact hacc m hm
    · split at hm
      · exact ih _ hacc m hm
      · rename_i hq
        refine ih _ ?_ m hm
        intro m2 hm2
        rcases List.mem_append.mp hm2 with h | h
        · exact hacc m2 h
        · rw [List.mem_singleton] at h
          subst h
          exact ⟨hq, rfl, rfl⟩

theorem backfillSupporting_ok :
    ∀ (cands : List Str) (sup : List Moment),
      (∀ m ∈ sup, MomentOk m) →
      ∀ m ∈ backfillSupporting cands sup, MomentOk m := by
  intro cands
  induction cands with
  | nil =>
    intro sup hsup m hm
    exact hsup m hm
  | cons c rest ih =>
    intro sup hsup m hm
    simp only [backfillSupporting] at hm
    split at hm
    · exact hsup m hm
    · split at hm
      · exact ih _ hsup m hm
      · split at hm
        · exact ih _ hsup m hm
        · rename_i hq _
          refine ih _ ?_ m hm
          intro m2 hm2
          rcases List.mem_append.mp hm2 with h | h
          · exact hsup m2 h
          · rw [List.mem_singleton] at h
            subst h
            exact ⟨hq, rfl, rfl⟩

theorem backfillSupporting_len_mono :
    ∀ (cands : List Str) (sup : List Moment),
      sup.length ≤ (backfillSupporting cands sup).length := by
  intro cands
  induction cands with
  | nil =>
    intro sup
    exact Nat.le_refl _
  | cons c rest ih =>
    intro sup
    simp only [backfillSupporting]
    split
    · exact Nat.le_refl _
    · split
      · exact ih _
      · split
        · exact ih _
        · exact le_trans (by simp)
            (ih (sup ++ [(⟨stripWs c, none, none⟩ : Moment)]))

theorem backfillSupporting_ge_one :
    ∀ (cands : List Str) (sup : List Moment),
      ((∃ c ∈ cands, stripWs c ≠ []) ∨ sup ≠ []) →
      1 ≤ (backfillSupporting cands sup).length := by
  intro cands
  induction cands with
  | nil =>
    intro sup h
    rcases h with ⟨c, hc, _⟩ | h
    · cases hc
    · simpa [backfillSupporting, Nat.one_le_iff_ne_zero, List.length_eq_zero] using h
  | cons c rest ih =>
    intro sup h
    simp only [backfillSupporting]
    split
    · rename_i h2
      omega
    · split
      · rename_i hq
        apply ih
        rcases h with ⟨c2, hc2, hne⟩ | h
        · rcases List.mem_cons.mp hc2 with rfl | hmem
          · exact absurd hq hne
          · exact Or.inl ⟨c2, hmem, hne⟩
        · exact Or.inr h
      · split
        · rename_i hdup
          apply ih
          right
          rcases List.any_eq_true.mp hdup with ⟨entry, hentry, _⟩
          intro hcon
          rw [hcon] at hentry
          cases hentry
        · apply ih
          right
          simp

theorem take3_backfill_ok (p o hk : Str) (sup0 : List Moment)
    (hsup0 : ∀ m ∈ sup0, MomentOk m) :
    1 ≤ ((backfillSupporting [p, o, hk, ("No supporting quote provided.".toList)]
          sup0).take 3).length ∧
    ((backfillSupporting [p, o, hk, ("No supporting quote provided.".toList)]
        sup0).take 3).length ≤ 3 ∧
    ∀ m ∈ (backfillSupporting [p, o, hk, ("No supporting quote provided.".toList)]
        sup0).take 3, MomentOk m := by
  have hge := backfillSupporting_ge_one
    [p, o, hk, ("No supporting quote provided.".toList)] sup0
    (Or.inl ⟨("No supporting quote provided.".toList), by simp, by decide⟩)
  refine ⟨?_, ?_, ?_⟩
  · rw [List.length_take]
    omega
  · rw [List.length_take]
    omega
  · intro m hm
    exact backfillSupporting_ok _ _ hsup0 m (List.mem_of_mem_take hm)

theorem normalizeHooksLoop_ok :
    ∀ (items : List JVal) (idx : ℕ) (acc : List Hook),
      (∀ h ∈ acc, HookOk h) →
      ∀ h ∈ normalizeHooksLoop items idx acc, HookOk h := by
  intro items
  induction items with
  | nil =>
    intro idx acc hacc h hm
    exact hacc h hm
  | cons x rest ih =>
    intro idx acc hacc h hm
    simp only [normalizeHooksLoop] at hm
    split at hm
    · exact hacc h hm
    · split at hm
      · split at hm
        · exact ih _ _ hacc h hm
        · refine ih _ _ ?_ h hm
          intro h2 hm2
          rcases List.mem_append.mp hm2 with hmm | hmm
          · exact hacc h2 hmm
          · rw [List.mem_singleton] at hmm
            subst hmm
            refine take3_backfill_ok _ _ _ _ ?_
            split
            · exact collectSupporting_ok _ _ (fun m2 hm2 => absurd hm2 (List.not_mem_nil m2))
            · intro m2 hm2
              cases hm2
      · exact ih _ _ hacc h hm

theorem normalizeHooksLoop_len_le :
    ∀ (items : List JVal) (idx : ℕ) (acc : List Hook),
      acc.length ≤ 3 → (normalizeHooksLoop items idx acc).length ≤ 3 := by
  intro items
  induction items with
  | nil =>
    intro idx acc hle
    exact hle
  | cons x rest ih =>
    intro idx acc hle
    simp only [normalizeHooksLoop]
    split
    · exact hle
    · rename_i hlt
      split
      · split
        · exact ih _ _ hle
        · refine ih _ _ ?_
          rw [List.length_append, List.length_singleton]
          omega
      · exact ih _ _ hle

theorem padFallbackHook_ok (i : ℕ) : HookOk (padFallbackHook i) := by
  refine ⟨by simp [padFallbackHook], by simp [padFallbackHook], ?_⟩
  intro m hm
  simp only [padFallbackHook, List.mem_singleton] at hm
  subst hm
  exact ⟨by decide, rfl, rfl⟩

theorem padHooksLoop_len :
    ∀ (fuel : ℕ) (hooks : List Hook),
      3 ≤ hooks.length + fuel → hooks.length ≤ 3 →
      (padHooksLoop fuel hooks).length = 3 := by
  intro fuel
  induction fuel with
  | zero =>
    intro hooks h1 h2
    simp only [padHooksLoop]
    omega
  | succ n ih =>
    intro hooks h1 h2
    simp only [padHooksLoop]
    split
    · rename_i hlt
      refine ih _ ?_ ?_ <;> simp <;> omega
    · omega

theorem padHooksLoop_ok :
    ∀ (fuel : ℕ) (hooks : List Hook),
      (∀ h ∈ hooks, HookOk h) →
      ∀ h ∈ padHooksLoop fuel hooks, HookOk h := by
  intro fuel
  induction fuel with
  | zero =>
    intro hooks hh h hm
    exact hh h hm
  | succ n ih =>
    intro hooks hh h hm
    simp only [padHooksLoop] at hm
    split at hm
    · refine ih _ ?_ h hm
      intro h2 hm2
      rcases List.mem_append.mp hm2 with hmm | hmm
      · exact hh h2 hmm
      · rw [List.mem_singleton] at hmm
        subst hmm
        exact padFallbackHook_ok _
    · exact hh h hm

theorem rerankHooks_length : ∀ (k : ℕ) (l : List Hook),
    (rerankHooks k l).length = l.length := by
  intro k l
  induction l generalizing k with
  | nil => rfl
  | cons h rest ih =>
    simp only [rerankHooks, List.length_cons, ih]

theorem rerankHooks_rank : ∀ (l : List Hook) (k i : ℕ)
    (hi : i < (rerankHooks k l).length),
    ((rerankHooks k l).get ⟨i, hi⟩).rank = k + i := by
  intro l
  induction l with
  | nil =>
    intro k i hi
    simp [rerankHooks] at hi
  | cons h rest ih =>
    intro k i hi
    cases i with
    | zero => rfl
    | succ j =>
      have := ih (k + 1) j (by
        simp only [rerankHooks, List.length_cons] at hi
        omega)
      simp only [rerankHooks, List.get_cons_succ]
      rw [this]
      omega

theorem rerankHooks_ok : ∀ (k : ℕ) (l : List Hook),
    (∀ h ∈ l, HookOk h) → ∀ h ∈ rerankHooks k l, HookOk h := by
  intro k l
  induction l generalizing k with
  | nil =>
    intro _ h hm
    cases hm
  | cons x rest ih =>
    intro hh h hm
    rcases List.mem_cons.mp hm with rfl | hmm
    · exact hh x (List.mem_cons_self _ _)
    · exact ih _ (fun h2 hm2 => hh h2 (List.mem_cons_of_mem _ hm2)) h hmm

theorem rerankHooks_map_rank : ∀ (k : ℕ) (l : List Hook),
    (rerankHooks k l).map Hook.rank = List.range' k l.length := by
  intro k l
  induction l generalizing k with
  | nil => rfl
  | cons h rest ih =>
    simp only [rerankHooks, List.map_cons, List.length_cons, List.range'_succ]
    rw [ih]

theorem normalizeHooksPayload_ok (payload : List (Str × JVal)) (b : Bool)
    (hooks : List Hook)
    (heq : normalizeHooksPayload payload = .ok (b, hooks)) :
    b = false ∧ hooks.length = 3 ∧
    hooks.map Hook.rank = [1, 2, 3] ∧
    ∀ h ∈ hooks, HookOk h := by
  unfold normalizeHooksPayload at heq
  split at heq
  · rename_i hooksRaw harr
    injection heq with heq2
    have hb : b = false := by
      have := congrArg Prod.fst heq2.symm
      simpa using this
    have hhooks : hooks = (rerankHooks 1 (padHooksLoop 3
        (normalizeHooksLoop hooksRaw 1 []))).take 3 := by
      have := congrArg Prod.snd heq2.symm
      simpa using this
    subst hb
    have hlen0 : (normalizeHooksLoop hooksRaw 1 []).length ≤ 3 :=
      normalizeHooksLoop_len_le _ _ _ (by simp)
    have hlenpad : (padHooksLoop 3 (normalizeHooksLoop hooksRaw 1 [])).length = 3 :=
      padHooksLoop_len _ _ (by omega) hlen0
    have hlenrr : (rerankHooks 1 (padHooksLoop 3
        (normalizeHooksLoop hooksRaw 1 []))).length = 3 := by
      rw [rerankHooks_length, hlenpad]
    have hlen : hooks.length = 3 := by
      rw [hhooks, List.length_take, hlenrr]
      omega
    refine ⟨rfl, hlen, ?_, ?_⟩
    · rw [hhooks, List.map_take, rerankHooks_map_rank, hlenpad]
      rfl
    · intro h hm
      rw [hhooks] at hm
      exact rerankHooks_ok _ _
        (padHooksLoop_ok _ _
          (normalizeHooksLoop_ok _ _ _ (fun h2 hm2 => absurd hm2 (List.not_mem_nil h2))))
        h (List.mem_of_mem_take hm)
  · cases heq

theorem singletonMoment_ok {q : Str} (hq : q ≠ []) :
    ∀ m ∈ [(⟨q, none, none⟩ : Moment)], MomentOk m := by
  intro m hm
  rw [List.mem_singleton] at hm
  subst hm
  exact ⟨hq, rfl, rfl⟩

theorem buildFallbackHooks_ok (title : Str) :
    (buildFallbackHooks title).length = 3 ∧
    (buildFallbackHooks title).map Hook.rank = [1, 2, 3] ∧
    ∀ h ∈ buildFallbackHooks title,
      HookOk h ∧ h.supporting_moments.length = 1 ∧
      ∀ m ∈ h.supporting_moments, m.startSec = none ∧ m.endSec = none := by
  refine ⟨rfl, rfl, ?_⟩
  intro h hm
  simp only [buildFallbackHooks, List.mem_cons, List.not_mem_nil, or_false] at hm
  rcases hm with rfl | rfl | rfl
  · refine ⟨⟨by simp, by simp, singletonMoment_ok (by decide)⟩, rfl, ?_⟩
    intro m hm2
    rw [List.mem_singleton] at hm2
    subst hm2
    exact ⟨rfl, rfl⟩
  · refine ⟨⟨by simp, by simp, singletonMoment_ok (by decide)⟩, rfl, ?_⟩
    intro m hm2
    rw [List.mem_singleton] at hm2
    subst hm2
    exact ⟨rfl, rfl⟩
  · refine ⟨⟨by simp, by simp, singletonMoment_ok (by decide)⟩, rfl, ?_⟩
    intro m hm2
    rw [List.mem_singleton] at hm2
    subst hm2
    exact ⟨rfl, rfl⟩

theorem selectKeywordPass_sub :
    ∀ (sentences acc : List Str), ∀ s ∈ selectKeywordPass sentences acc,
      s ∈ acc ∨ s ∈ sentences := by
  intro sentences
  induction sentences with
  | nil =>
    intro acc s hs
    exact Or.inl hs
  | cons x rest ih =>
    intro acc s hs
    simp only [selectKeywordPass] at hs
    by_cases hk : derivedKeywords.any (fun k => containsSub k (lowerStr x)) = true
    · rw [if_pos hk] at hs
      by_cases h6 : (acc ++ [x]).length ≥ 6
      · rw [if_pos h6] at hs
        rcases List.mem_append.mp hs with h | h
        · exact Or.inl h
        · rw [List.mem_singleton] at h
          subst h
          exact Or.inr (List.mem_cons_self _ _)
      · rw [if_neg h6] at hs
        rcases ih _ s hs with h | h
        · rcases List.mem_append.mp h with h2 | h2
          · exact Or.inl h2
          · rw [List.mem_singleton] at h2
            subst h2
            exact Or.inr (List.mem_cons_self _ _)
        · exact Or.inr (List.mem_cons_of_mem _ h)
    · rw [if_neg hk] at hs
      by_cases h6 : acc.length ≥ 6
      · rw [if_pos h6] at hs
        exact Or.inl hs
      · rw [if_neg h6] at hs
        rcases ih _ s hs with h | h
        · exact Or.inl h
        · exact Or.inr (List.mem_cons_of_mem _ h)

theorem selectFillPass_sub :
    ∀ (sentences acc : List Str), ∀ s ∈ selectFillPass sentences acc,
      s ∈ acc ∨ s ∈ sentences := by
  intro sentences
  induction sentences with
  | nil =>
    intro acc s hs
    exact Or.inl hs
  | cons x rest ih =>
    intro acc s hs
    simp only [selectFillPass] at hs
    by_cases hin : decide (x ∈ acc) = true
    · rw [if_pos hin] at hs
      rcases ih _ s hs with h | h
      · exact Or.inl h
      · exact Or.inr (List.mem_cons_of_mem _ h)
    · rw [if_neg hin] at hs
      by_cases h6 : (acc ++ [x]).length ≥ 6
      · rw [if_pos h6] at hs
        rcases List.mem_append.mp hs with h | h
        · exact Or.inl h
        · rw [List.mem_singleton] at h
          subst h
          exact Or.inr (List.mem_cons_self _ _)
      · rw [if_neg h6] at hs
        rcases ih _ s hs with h | h
        · rcases List.mem_append.mp h with h2 | h2
          · exact Or.inl h2
          · rw [List.mem_singleton] at h2
            subst h2
            exact Or.inr (List.mem_cons_self _ _)
        · exact Or.inr (List.mem_cons_of_mem _ h)

theorem selectSentences_sub (sentences : List Str) :
    ∀ s ∈ selectSentences sentences, s ∈ sentences := by
  intro s hs
  simp only [selectSentences] at hs
  split at hs
  · rcases selectFillPass_sub _ _ s hs with h | h
    · rcases selectKeywordPass_sub _ _ s h with h2 | h2
      · cases h2
      · exact h2
    · exact h
  · rcases selectKeywordPass_sub _ _ s hs with h | h
    · cases h
    · exact h

theorem derivedSentences_ne_nil (t : Str) : ∀ s ∈ derivedSentences t, s ≠ [] := by
  intro s hs
  unfold derivedSentences at hs
  rw [List.mem_filter] at hs
  have h2 := hs.2
  simp only [decide_eq_true_eq] at h2
  intro hcon
  subst hcon
  simp at h2

theorem buildTranscriptDerivedHooks_ok (t : Str) :
    buildTranscriptDerivedHooks t = [] ∨
    ((buildTranscriptDerivedHooks t).length = 3 ∧
     (buildTranscriptDerivedHooks t).map Hook.rank = [1, 2, 3] ∧
     ∀ h ∈ buildTranscriptDerivedHooks t, HookOk h) := by
  by_cases h1 : stripWs t = []
  · left
    simp [buildTranscriptDerivedHooks, h1]
  · by_cases h2 : derivedSentences (stripWs t) = []
    · left
      simp [buildTranscriptDerivedHooks, h1, h2]
    · by_cases h3 : (selectSentences (derivedSentences (stripWs t))).length < 3
      · left
        simp [buildTranscriptDerivedHooks, h1, h2, h3]
      · right
        have hquote : ∀ k : ℕ,
            k < (selectSentences (derivedSentences (stripWs t))).length →
            (selectSentences (derivedSentences (stripWs t))).getD k [] ≠ [] := by
          intro k hk
          have hmem : (selectSentences (derivedSentences (stripWs t))).getD k []
              ∈ selectSentences (derivedSentences (stripWs t)) := by
            rw [List.getD_eq_getElem _ _ hk]
            exact List.getElem_mem _
          exact derivedSentences_ne_nil _ _ (selectSentences_sub _ _ hmem)
        have hlen3 : 3 ≤ (selectSentences (derivedSentences (stripWs t))).length := by
          omega
        refine ⟨?_, ?_, ?_⟩
        · simp only [buildTranscriptDerivedHooks]
          rw [if_neg h1, if_neg h2, if_neg h3]
          simp
        · simp only [buildTranscriptDerivedHooks]
          rw [if_neg h1, if_neg h2, if_neg h3]
          rfl
        · intro h hm
          simp only [buildTranscriptDerivedHooks] at hm
          rw [if_neg h1, if_neg h2, if_neg h3] at hm
          rw [List.mem_map] at hm
          obtain ⟨idx, hidx, rfl⟩ := hm
          rw [List.mem_range] at hidx
          refine ⟨by simp, by simp, ?_⟩
          intro m hm2
          simp only [List.mem_cons, List.not_mem_nil, or_false] at hm2
          rcases hm2 with rfl | rfl
          · refine ⟨?_, rfl, rfl⟩
            split
            · rename_i hk
              exact hquote _ hk
            · exact hquote _ (by omega)
          · refine ⟨?_, rfl, rfl⟩
            split
            · rename_i hk
              exact hquote _ hk
            · exact hquote _ (by omega)

/-- Any hooks list the final persisted record of `_extract_hooks` can carry
when it came from a successful normalization (possibly replaced by
transcript-derived hooks if the normalized ones are placeholders) has
exactly three hooks, ranks 1, 2, 3 in order, and well-formed hooks. -/
theorem payloadInv_of_normalized (normalizedHooks : List Hook)
    (transcript nowUtc draftTone : Str) (b : Bool)
    (parsed : List (Str × JVal))
    (hn : normalizeHooksPayload parsed = .ok (b, normalizedHooks)) :
    PayloadInv { hasTimestamps := false, generatedAtUtc := nowUtc,
                 draftTone := draftTone,
                 hooks :=
                   if hooksArePlaceholder normalizedHooks then
                     (if (buildTranscriptDerivedHooks transcript).isEmpty
                      then normalizedHooks
                      else buildTranscriptDerivedHooks transcript)
                   else normalizedHooks } := by
  obtain ⟨-, hlen, hrank, hok⟩ :=
    normalizeHooksPayload_ok parsed b normalizedHooks hn
  have key : ∀ hooksF : List Hook,
      hooksF = (if hooksArePlaceholder normalizedHooks then
                  (if (buildTranscriptDerivedHooks transcript).isEmpty
                   then normalizedHooks
                   else buildTranscriptDerivedHooks transcript)
                else normalizedHooks) →
      hooksF.length = 3 ∧ hooksF.map Hook.rank = [1, 2, 3] ∧
      ∀ h ∈ hooksF, HookOk h := by
    intro hooksF hF
    split at hF
    · split at hF
      · subst hF
        exact ⟨hlen, hrank, hok⟩
      · rename_i hne
        subst hF
        rcases buildTranscriptDerivedHooks_ok transcript with hnil | ⟨h1, h2, h3⟩
        · rw [hnil] at hne
          exact absurd rfl hne
        · exact ⟨h1, h2, h3⟩
    · subst hF
      exact ⟨hlen, hrank, hok⟩
  obtain ⟨h1, h2, h3⟩ := key _ rfl
  exact ⟨rfl, h1, h2, h3⟩

/-- **C1** (amended): every hooks payload `_extract_hooks` returns for
persistence — whether from normalized model output, transcript-derived
replacement, or the fallback path — has `hasTimestamps = false`, exactly
three hooks with ranks 1, 2, 3 in order, and every hook carries between
one and three supporting moments, each with a non-empty quote and null
timestamps.  (The frozen claim's bound of "between 2 and 3" moments fails
on the fallback hooks, which carry exactly one moment each; see the
counterexample.) -/
theorem c1_hooks_payload_invariant
    (jsonLoads : Str → Option JVal) (llm1 llm2 : LlmOutcome) (c : Bool)
    (title transcriptText draftTone nowUtc : Str) (p : HooksPayload)
    (h : (extractHooks jsonLoads llm1 llm2 c title transcriptText
            draftTone nowUtc).2 = .ok p) :
    PayloadInv p := by
  simp only [extractHooks] at h
  split at h
  · exact Except.noConfusion h
  · split at h
    · injection h with h
      subst h
      obtain ⟨hl, hr, hall⟩ := buildFallbackHooks_ok title
      exact ⟨rfl, hl, hr, fun hk hm => (hall hk hm).1⟩
    · split at h
      · exact Except.noConfusion h
      · exact Except.noConfusion h
      · split at h
        · exact Except.noConfusion h
        · split at h
          · exact Except.noConfusion h
          · rename_i heq2
            injection h with h
            subst h
            exact payloadInv_of_normalized _ _ _ _ _ _ heq2

/-- **C1 counterexample**: the frozen claim requires every persisted hook to
carry between 2 and 3 supporting moments, but the fallback path (empty
transcript) persists hooks with exactly one moment each: the first hook of
the payload returned for a whitespace transcript has a single supporting
moment. -/
theorem c1_counterexample :
    ¬ (∀ p : HooksPayload,
        (extractHooks (fun _ => none) .failed .failed false ("T".toList)
          (" ".toList) ("tone".toList) ("now".toList)).2 = .ok p →
        ∀ hk ∈ p.hooks, 2 ≤ hk.supporting_moments.length) := by
  intro hall
  have hp := hall _ rfl
  have h1 := hp ((buildFallbackHooks ("T".toList)).get ⟨0, by decide⟩)
    (List.get_mem _ 0 (by decide))
  exact absurd h1 (by decide)

/-- **C1 witness**: the amended invariant instantiated on a concrete run
(whitespace transcript, so the fallback path fires). -/
theorem c1_hooks_payload_invariant_witness :
    PayloadInv { hasTimestamps := false, generatedAtUtc := ("now".toList),
                 draftTone := ("tone".toList),
                 hooks := buildFallbackHooks ("T".toList) } :=
  c1_hooks_payload_invariant (fun _ => none) .failed .failed false
    ("T".toList) (" ".toList) ("tone".toList) ("now".toList) _ rfl

/-- **C10**: if the transcript strips to the empty string, `_extract_hooks`
makes zero generation-engine calls and returns exactly the payload built
from the three fallback hooks (ranks 1, 2, 3 in order, each with exactly
one supporting moment whose startSec and endSec are null),
`hasTimestamps = false`, the supplied fresh timestamp and the job's draft
tone. -/
theorem c10_empty_transcript_fallback
    (jsonLoads : Str → Option JVal) (llm1 llm2 : LlmOutcome)
    (title transcriptText draftTone nowUtc : Str)
    (hempty : stripWs transcriptText = []) :
    extractHooks jsonLoads llm1 llm2 false title transcriptText
        draftTone nowUtc
      = (0, .ok { hasTimestamps := false, generatedAtUtc := nowUtc,
                  draftTone := draftTone,
                  hooks := buildFallbackHooks title }) ∧
    (buildFallbackHooks title).length = 3 ∧
    (buildFallbackHooks title).map Hook.rank = [1, 2, 3] ∧
    ∀ h ∈ buildFallbackHooks title,
      h.supporting_moments.length = 1 ∧
      ∀ m ∈ h.supporting_moments, m.startSec = none ∧ m.endSec = none := by
  refine ⟨?_, rfl, rfl, ?_⟩
  · simp [extractHooks, hempty]
  · intro h hm
    exact ((buildFallbackHooks_ok title).2.2 h hm).2

/-- **C10 witness**: the theorem applied to a concrete whitespace-only
transcript. -/
theorem c10_empty_transcript_fallback_witness :
    extractHooks (fun _ => none) .cancelled .cancelled false ("T".toList)
        ("  ".toList) ("tone".toList) ("now".toList)
      = (0, .ok { hasTimestamps := false, generatedAtUtc := ("now".toList),
                  draftTone := ("tone".toList),
                  hooks := buildFallbackHooks ("T".toList) }) :=
  (c10_empty_transcript_fallback (fun _ => none) .cancelled .cancelled
    ("T".toList) ("  ".toList) ("tone".toList) ("now".toList)
    (by decide)).1

/-! ## X-thread extraction, normalization and validation (claim C4)

`_extract_x_thread_posts`, `_normalize_x_thread_posts`,
`_x_thread_within_limit`, `_truncate_x_thread_posts` (youtube_pipeline.py
lines 1554-1602) and `_validate_x_thread` (lines 972-1033).  The regex
`(?m)^\s*\[(\d)\/5\]\s*` is modelled directly: a match starts at a line
start (string start or right after a newline), skips the maximal
whitespace run, requires the five characters of a single-digit marker,
and then consumes the maximal trailing whitespace run (which may cross
newlines — so a second marker can be swallowed mid-line, exactly as with
the Python engine).  Whitespace and digits are ASCII, and `splitlines` is
modelled as splitting on the newline character. -/

/-- Length of the maximal whitespace run at the head of `l`. -/
def wsRunLen (l : Str) : ℕ := (l.takeWhile pySpace).length

/-- After the leading whitespace: a single-digit `[d/5]` marker followed
by its maximal trailing whitespace run; returns the consumed length. -/
def markerHeadLen (l : Str) : Option ℕ :=
  match l with
  | '[' :: d :: '/' :: '5' :: ']' :: rest =>
    if d.isDigit then some (5 + wsRunLen rest) else none
  | _ => none

/-- The regex matched at position `i` of `text`: returns the end
position of the match (exclusive). -/
def matchMarkerAt (text : Str) (i : ℕ) : Option ℕ :=
  let tl := text.drop i
  let w := wsRunLen tl
  match markerHeadLen (tl.drop w) with
  | some k => some (i + w + k)
  | none => none

/-- Is position `i` a line start (for the multiline anchor)? -/
def lineStartAt (text : Str) (i : ℕ) : Bool :=
  i == 0 || text.getD (i - 1) ' ' == '\n'

/-- Leftmost marker match starting at or after `pos`:
`(start, end)`. -/
def findMarkerFrom (text : Str) (pos : ℕ) : Option (ℕ × ℕ) :=
  (List.range (text.length + 1)).findSome? (fun i =>
    if pos ≤ i then
      if lineStartAt text i then
        match matchMarkerAt text i with
        | some e => some (i, e)
        | none => none
      else none
    else none)

/-- `finditer`: non-overlapping matches, resuming at each match end. -/
def findMarkersGo (text : Str) : ℕ → ℕ → List (ℕ × ℕ)
  | 0, _ => []
  | fuel + 1, pos =>
    match findMarkerFrom text pos with
    | none => []
    | some (s, e) => (s, e) :: findMarkersGo text fuel e

/-- The literal marker string `[n/5]`. -/
def markerStr (n : ℕ) : Str := '[' :: (natToStr n ++ ['/', '5', ']'])

/-- The chunks between consecutive match starts (last chunk runs to the
end of the text), stripped, empties dropped. -/
def xThreadChunks (text : Str) : List (ℕ × ℕ) → List Str
  | [] => []
  | (s, _) :: rest =>
    let e := match rest with
             | [] => text.length
             | (s2, _) :: _ => s2
    let chunk := stripWs ((text.drop s).take (e - s))
    if chunk = [] then xThreadChunks text rest
    else chunk :: xThreadChunks text rest

/-- `_extract_x_thread_posts` (lines 1554-1573). -/
def extractXThreadPosts (rawText : Str) : List Str :=
  let text := stripWs rawText
  if text = [] then []
  else
    let ms := findMarkersGo text (text.length + 1) 0
    if ms = [] then
      let lines := ((splitOnChar '\n' text).map stripWs).filter
        (fun l => !l.isEmpty)
      (List.range (min 5 lines.length)).map (fun idx =>
        markerStr (idx + 1) ++ (' ' :: lines.getD idx []))
    else xThreadChunks text ms

/-- Does the (already stripped) post begin with a single-digit `[d/5]`
marker?  (`re.match(r"^\s*\[\d\/5\]\s*", source)` with no leading
whitespace left.) -/
def startsMarker (s : Str) : Bool :=
  match s with
  | '[' :: d :: '/' :: '5' :: ']' :: _ => d.isDigit
  | _ => false

/-- `_normalize_x_thread_posts` (lines 1575-1587).  Note that the
enumeration index keeps counting entries that strip to empty even though
they are skipped. -/
def normalizeXThreadGo : ℕ → List Str → List Str
  | _, [] => []
  | idx, source :: rest =>
    let s := stripWs source
    if s = [] then normalizeXThreadGo (idx + 1) rest
    else
      let tl := if startsMarker s then (s.drop 5).dropWhile pySpace else s
      stripWs (markerStr (idx + 1) ++ (' ' :: tl)) ::
        normalizeXThreadGo (idx + 1) rest

def normalizeXThreadPosts (posts : List Str) : List Str :=
  normalizeXThreadGo 0 posts

/-- `_x_thread_within_limit` (lines 1589-1591). -/
def xThreadWithinLimit (posts : List Str) : Bool :=
  posts.length == 5 && posts.all (fun p => decide (p.length ≤ 280))

/-- `_truncate_x_thread_posts` (lines 1593-1602): over-long posts become
their first 277 characters, right-stripped, plus `...`. -/
def truncateXThreadPosts (posts : List Str) : List Str :=
  posts.map (fun post =>
    if post.length ≤ 280 then post
    else rstripWs (post.take 277) ++ ("...".toList))

/-- `"\n\n".join`. -/
def joinPosts (posts : List Str) : Str :=
  List.intercalate ('\n' :: '\n' :: []) posts

/-- `_validate_x_thread` (lines 972-1033), the repair LLM call supplied
as an oracle.  A `JOB_CANCELLED` raised by the call is re-raised; every
other `PipelineError` raised inside the `try` — including the
`DRAFTS_GENERATION_FAILED` raised when the repaired text does not yield
exactly 5 posts — is caught by the `except PipelineError` handler and
only logged, after which the original posts are truncated if there are
exactly 5 of them. -/
def validateXThread (llm : LlmOutcome) (xThreadText : Str) :
    Except PipelineError Str :=
  let posts := normalizeXThreadPosts (extractXThreadPosts xThreadText)
  if xThreadWithinLimit posts then .ok (joinPosts posts)
  else
    let tryOutcome : Except PipelineError (Option Str) :=
      match llm with
      | .cancelled => .error ⟨"JOB_CANCELLED".toList, "job cancelled".toList⟩
      | .failed => .ok none
      | .ok repaired =>
        let repairedPosts :=
          normalizeXThreadPosts (extractXThreadPosts repaired)
        if repairedPosts.length ≠ 5 then .ok none
        else if xThreadWithinLimit repairedPosts then
          .ok (some (joinPosts repairedPosts))
        else
          let truncated := truncateXThreadPosts repairedPosts
          if xThreadWithinLimit truncated then
            .ok (some (joinPosts truncated))
          else .ok none
    match tryOutcome with
    | .error e => .error e
    | .ok (some out) => .ok out
    | .ok none =>
      if posts.length = 5 then
        let truncated := truncateXThreadPosts posts
        if xThreadWithinLimit truncated then .ok (joinPosts truncated)
        else .error ⟨"DRAFTS_GENERATION_FAILED".toList,
                     "Unable to produce a valid 5-post X thread.".toList⟩
      else .error ⟨"DRAFTS_GENERATION_FAILED".toList,
                   "Unable to produce a valid 5-post X thread.".toList⟩

theorem dropWhile_idem (p : Char → Bool) (l : List Char) :
    List.dropWhile p (List.dropWhile p l) = List.dropWhile p l := by
  induction l with
  | nil => rfl
  | cons a l ih =>
    cases ha : p a with
    | true => simp [List.dropWhile_cons, ha, ih]
    | false => simp [List.dropWhile_cons, ha]

theorem dropWhile_append_stop (p : Char → Bool) (a : Char)
    (ha : p a = false) (ys xs : List Char) :
    List.dropWhile p (ys ++ a :: xs) = List.dropWhile p ys ++ a :: xs := by
  induction ys with
  | nil => simp [List.dropWhile_cons, ha]
  | cons y ys ih =>
    cases hy : p y with
    | true => simp [List.dropWhile_cons, hy, ih]
    | false => simp [List.dropWhile_cons, hy]

theorem rstripWs_idem (s : Str) : rstripWs (rstripWs s) = rstripWs s := by
  simp only [rstripWs, List.reverse_reverse, dropWhile_idem]

theorem lstripWs_rstripWs (x : Str) (hx : lstripWs x = x) :
    lstripWs (rstripWs x) = rstripWs x := by
  cases hx2 : x with
  | nil => rfl
  | cons a l =>
    subst hx2
    have ha : pySpace a = false := by
      by_contra hcon
      rw [Bool.not_eq_false] at hcon
      rw [lstripWs, List.dropWhile_cons, if_pos hcon] at hx
      have h1 := congrArg List.length hx
      have h2 := length_dropWhile_le pySpace l
      simp only [List.length_cons] at h1
      omega
    cases hr : rstripWs (a :: l) with
    | nil => rfl
    | cons b m =>
      obtain ⟨t, ht⟩ :=
        (List.dropWhile_suffix pySpace :
          List.dropWhile pySpace (a :: l).reverse <:+ (a :: l).reverse)
      have hx3 : rstripWs (a :: l) ++ t.reverse = a :: l := by
        have h5 := congrArg List.reverse ht
        rw [List.reverse_append, List.reverse_reverse] at h5
        exact h5
      rw [hr, List.cons_append] at hx3
      have hb : b = a := (List.cons.injEq _ _ _ _).mp hx3 |>.1
      rw [lstripWs, List.dropWhile_cons, hb, ha]
      simp

theorem stripWs_idem (s : Str) : stripWs (stripWs s) = stripWs s := by
  have h1 : lstripWs (lstripWs s) = lstripWs s := dropWhile_idem _ _
  simp only [stripWs]
  rw [lstripWs_rstripWs _ h1, rstripWs_idem]

theorem startsWithStr_append (p rest : Str) :
    startsWithStr p (p ++ rest) = true := by
  induction p with
  | nil => rfl
  | cons a ps ih => simp [startsWithStr, ih]

theorem startsWithStr_iff (p : Str) : ∀ s : Str,
    startsWithStr p s = true ↔ ∃ t, s = p ++ t := by
  induction p with
  | nil =>
    intro s
    simp [startsWithStr]
  | cons a ps ih =>
    intro s
    cases s with
    | nil =>
      simp [startsWithStr]
    | cons b t =>
      simp only [startsWithStr, Bool.and_eq_true, beq_iff_eq, ih,
        List.cons_append, List.cons.injEq]
      constructor
      · rintro ⟨rfl, t2, rfl⟩
        exact ⟨t2, rfl, rfl⟩
      · rintro ⟨t2, rfl, rfl⟩
        exact ⟨rfl, t2, rfl⟩

theorem markerStr_eq (n : ℕ) :
    markerStr n = ('[' :: (natToStr n ++ ['/', '5'])) ++ [']'] := by
  simp [markerStr]

theorem rstripWs_append_last (pre rest : Str) (a : Char)
    (ha : pySpace a = false) :
    rstripWs ((pre ++ [a]) ++ rest) = (pre ++ [a]) ++ rstripWs rest := by
  simp only [rstripWs, List.reverse_append, List.reverse_cons,
    List.reverse_nil, List.nil_append, List.append_assoc, List.cons_append]
  rw [dropWhile_append_stop pySpace a ha]
  simp [List.reverse_append]

theorem stripWs_marker_starts (n : ℕ) (tl : Str) :
    startsWithStr (markerStr n) (stripWs (markerStr n ++ (' ' :: tl)))
      = true := by
  have hl : lstripWs (markerStr n ++ (' ' :: tl))
      = markerStr n ++ (' ' :: tl) := by
    simp [lstripWs, markerStr, List.dropWhile_cons, pySpace]
  rw [stripWs, hl, markerStr_eq n, rstripWs_append_last _ _ _ (by decide)]
  rw [← markerStr_eq]
  exact startsWithStr_append _ _

theorem stripWs_marker_ne (n : ℕ) (tl : Str) :
    stripWs (markerStr n ++ (' ' :: tl)) ≠ [] := by
  intro hnil
  have hsw := stripWs_marker_starts n tl
  rw [hnil] at hsw
  simp [markerStr, startsWithStr] at hsw

theorem xThreadChunks_ne (text : Str) (ms : List (ℕ × ℕ)) :
    ∀ p ∈ xThreadChunks text ms, stripWs p ≠ [] := by
  induction ms with
  | nil => simp [xThreadChunks]
  | cons me rest ih =>
    obtain ⟨s, e⟩ := me
    intro p hp
    simp only [xThreadChunks] at hp
    split at hp
    · exact ih p hp
    · rename_i hch
      rcases List.mem_cons.mp hp with rfl | hmem
      · rw [stripWs_idem]
        exact hch
      · exact ih p hmem

theorem extractXThreadPosts_ne (t : Str) :
    ∀ p ∈ extractXThreadPosts t, stripWs p ≠ [] := by
  intro p hp
  simp only [extractXThreadPosts] at hp
  split at hp
  · simp at hp
  · split at hp
    · rw [List.mem_map] at hp
      obtain ⟨idx, hidx, rfl⟩ := hp
      exact stripWs_marker_ne _ _
    · exact xThreadChunks_ne _ _ p hp

theorem normalizeXThreadGo_marker (posts : List Str) :
    ∀ (k : ℕ), (∀ p ∈ posts, stripWs p ≠ []) →
    ∀ j (hj : j < (normalizeXThreadGo k posts).length),
      startsWithStr (markerStr (k + j + 1))
        ((normalizeXThreadGo k posts).get ⟨j, hj⟩) = true := by
  induction posts with
  | nil =>
    intro k h j hj
    simp [normalizeXThreadGo] at hj
  | cons p rest ih =>
    intro k h j
    have hp : stripWs p ≠ [] := h p (by simp)
    have hlist : normalizeXThreadGo k (p :: rest)
        = stripWs (markerStr (k + 1) ++ (' ' ::
            (if startsMarker (stripWs p) then
              List.dropWhile pySpace (List.drop 5 (stripWs p))
            else stripWs p)))
          :: normalizeXThreadGo (k + 1) rest := by
      simp only [normalizeXThreadGo]
      rw [if_neg hp]
    rw [hlist]
    intro hj
    cases j with
    | zero =>
      simpa using stripWs_marker_starts (k + 1) _
    | succ j' =>
      have hj' : j' < (normalizeXThreadGo (k + 1) rest).length := by
        simp only [List.length_cons] at hj
        omega
      have hres := ih (k + 1) (fun q hq => h q (by simp [hq])) j' hj'
      have harith : k + 1 + j' + 1 = k + (j' + 1) + 1 := by omega
      rw [harith] at hres
      simpa using hres

theorem normalizedPosts_marker (t : Str) :
    ∀ j (hj : j < (normalizeXThreadPosts (extractXThreadPosts t)).length),
      startsWithStr (markerStr (j + 1))
        ((normalizeXThreadPosts (extractXThreadPosts t)).get ⟨j, hj⟩)
        = true := by
  intro j hj
  have hres := normalizeXThreadGo_marker (extractXThreadPosts t) 0
    (extractXThreadPosts_ne t) j hj
  simpa using hres

theorem xThreadWithinLimit_spec (ps : List Str)
    (h : xThreadWithinLimit ps = true) :
    ps.length = 5 ∧ ∀ p ∈ ps, p.length ≤ 280 := by
  simp only [xThreadWithinLimit, Bool.and_eq_true, beq_iff_eq,
    List.all_eq_true, decide_eq_true_eq] at h
  exact h

theorem truncateXThreadPosts_length (ps : List Str) :
    (truncateXThreadPosts ps).length = ps.length := by
  simp [truncateXThreadPosts]

theorem truncate_marker (ps : List Str) (j : ℕ) (n : ℕ)
    (hj : j < ps.length) (hj2 : j < (truncateXThreadPosts ps).length)
    (hn : startsWithStr (markerStr n) (ps.get ⟨j, hj⟩) = true)
    (hlen : (markerStr n).length ≤ 277) :
    startsWithStr (markerStr n)
      ((truncateXThreadPosts ps).get ⟨j, hj2⟩) = true := by
  simp only [truncateXThreadPosts, List.get_eq_getElem, List.getElem_map]
  rw [List.get_eq_getElem] at hn
  split
  · exact hn
  · obtain ⟨tl, htl⟩ := (startsWithStr_iff _ _).mp hn
    rw [htl, List.take_append_eq_append_take,
      List.take_of_length_le hlen]
    rw [markerStr_eq n, rstripWs_append_last _ _ _ (by decide),
      List.append_assoc, ← markerStr_eq]
    exact startsWithStr_append _ _

/-- **C4** (amended): every X-thread text the drafts stage accepts is the
`\n\n`-join of exactly 5 posts, each at most 280 characters, and each
post starts with the marker `[N/5]` of its 1-based index — but not
necessarily with `[N/5] ` including the trailing space: a marker-only
post normalizes to plain `[N/5]`, and the truncation right-strip can eat
the space (see the counterexample).  The repaired-posts-count failure
claimed by the spec is also weaker than stated: the
`DRAFTS_GENERATION_FAILED` raised when the repair does not yield exactly
5 posts is swallowed by the surrounding handler, and the job still
succeeds by truncating the original 5 posts when there are 5 of them. -/
theorem c4_x_thread_validation (llm : LlmOutcome) (text out : Str)
    (h : validateXThread llm text = .ok out) :
    ∃ ps : List Str,
      out = joinPosts ps ∧
      ps.length = 5 ∧
      (∀ p ∈ ps, p.length ≤ 280) ∧
      ∀ j (hj : j < ps.length),
        startsWithStr (markerStr (j + 1)) (ps.get ⟨j, hj⟩) = true := by
  simp only [validateXThread] at h
  split at h
  · rename_i hwl
    injection h with h
    exact ⟨_, h.symm, (xThreadWithinLimit_spec _ hwl).1,
      (xThreadWithinLimit_spec _ hwl).2, normalizedPosts_marker text⟩
  · rename_i hwl0
    split at h
    · exact Except.noConfusion h
    · rename_i out2 heq
      injection h with h
      subst h
      split at heq
      · exact Except.noConfusion heq
      · injection heq with heq
        exact Option.noConfusion heq
      · rename_i repaired
        split at heq
        · injection heq with heq
          exact Option.noConfusion heq
        · rename_i hlen5
          split at heq
          · rename_i hwl2
            injection heq with heq
            injection heq with heq
            subst heq
            exact ⟨_, rfl, (xThreadWithinLimit_spec _ hwl2).1,
              (xThreadWithinLimit_spec _ hwl2).2,
              normalizedPosts_marker repaired⟩
          · split at heq
            · rename_i hwl3
              injection heq with heq
              injection heq with heq
              subst heq
              refine ⟨_, rfl, (xThreadWithinLimit_spec _ hwl3).1,
                (xThreadWithinLimit_spec _ hwl3).2, ?_⟩
              intro j hj
              have hj0 : j < (normalizeXThreadPosts
                  (extractXThreadPosts repaired)).length := by
                rw [truncateXThreadPosts_length] at hj
                exact hj
              have hj5 : j < 5 := by
                have := (xThreadWithinLimit_spec _ hwl3).1
                omega
              refine truncate_marker _ j (j + 1) hj0 hj
                (normalizedPosts_marker repaired j hj0) ?_
              interval_cases j <;> decide
            · injection heq with heq
              exact Option.noConfusion heq
    · split at h
      · rename_i hlen5o
        split at h
        · rename_i hwl4
          injection h with h
          refine ⟨_, h.symm, (xThreadWithinLimit_spec _ hwl4).1,
            (xThreadWithinLimit_spec _ hwl4).2, ?_⟩
          intro j hj
          have hj0 : j < (normalizeXThreadPosts
              (extractXThreadPosts text)).length := by
            rw [truncateXThreadPosts_length] at hj
            exact hj
          have hj5 : j < 5 := by
            have := (xThreadWithinLimit_spec _ hwl4).1
            omega
          refine truncate_marker _ j (j + 1) hj0 hj
            (normalizedPosts_marker text j hj0) ?_
          interval_cases j <;> decide
        · exact Except.noConfusion h
      · exact Except.noConfusion h

/-- **C4 witness**: a well-formed 5-post thread is accepted unchanged
(the amended theorem applied to a concrete run with a failing repair
oracle, which is never consulted). -/
theorem c4_x_thread_validation_witness :
    ∃ ps : List Str,
      (("[1/5] a\n\n[2/5] b\n\n[3/5] c\n\n[4/5] d\n\n[5/5] e").toList)
        = joinPosts ps ∧
      ps.length = 5 ∧
      (∀ p ∈ ps, p.length ≤ 280) ∧
      ∀ j (hj : j < ps.length),
        startsWithStr (markerStr (j + 1)) (ps.get ⟨j, hj⟩) = true :=
  c4_x_thread_validation LlmOutcome.failed
    (("[1/5] a\n[2/5] b\n[3/5] c\n[4/5] d\n[5/5] e").toList) _ rfl

/-- **C4 counterexample**: the frozen claim says every accepted post
starts with `[N/5] ` (with the trailing space).  A marker-only first
post is accepted as plain `[1/5]`: normalization rewrites it to
`[1/5] ` and the final strip removes the space again, yet the thread
passes the length-and-count check and is persisted. -/
theorem c4_counterexample :
    validateXThread LlmOutcome.failed
        (("[1/5]\n[2/5] a\n[3/5] b\n[4/5] c\n[5/5] d").toList)
      = .ok (("[1/5]\n\n[2/5] a\n\n[3/5] b\n\n[4/5] c\n\n[5/5] d").toList)
    ∧ startsWithStr ("[1/5] ".toList)
        ((normalizeXThreadPosts (extractXThreadPosts
          (("[1/5]\n[2/5] a\n[3/5] b\n[4/5] c\n[5/5] d").toList))).headD [])
        = false :=
  ⟨rfl, rfl⟩
